import Mathlib

/-!
Shallow embedding of the fixed-bin-count histogram of `src/histogram.rs`
(the body of the `define_histogram!` macro, instantiated at an arbitrary
bin count `n`, the macro's `LEN`).

Modelling decisions:
* an `f64` value is modelled by the inductive type `F`, distinguishing NaN,
  the two infinities, negative zero, and finite values (exact rationals);
* IEEE comparisons go through `F.ext : F → WithBot (WithTop ℚ)`; NaN is
  unordered (every comparison helper first tests `isNan`), and negative
  zero is equal to positive zero under `F.ext`, as under IEEE `==`;
* arithmetic (`fsub`, `fdiv`, `fmul`, used only by `with_const_width`)
  models the IEEE special values exactly — NaN propagation, `inf - inf`,
  `inf * 0` and `0 / 0` giving NaN, signed infinities and signed zeros —
  and saturates to the signed infinity whenever the exact result's
  magnitude exceeds `f64::MAX`; in-range results are exact rationals
  (round-to-nearest is not modelled, see `mkF`);
* the `u64` bin counters are naturals, and every machine operation that
  can overflow wraps with an explicit `% 2 ^ 64` (Rust release semantics);
* a Rust panic (`unwrap` of `partial_cmp` on NaN, `assert_eq!` failure in
  `add_assign`) is modelled by `none`;
* the fixed-size arrays `[f64; LEN + 1]` / `[u64; LEN]` are lists together
  with the length facts `range.length = n + 1`, `bin.length = n` carried as
  hypotheses where a theorem needs them.
-/

/-- Model of an `f64` value: NaN, the infinities, negative zero, or a
finite value represented exactly as a rational number. -/
inductive F where
  | nan
  | negInf
  | posInf
  | negZero
  | val (q : ℚ)
deriving DecidableEq

/-- Rust `f64::is_nan`. -/
def F.isNan : F → Bool
  | F.nan => true
  | _ => false

/-- The IEEE value order on non-NaN floats, as an embedding into
`WithBot (WithTop ℚ)` (`⊥` is `-inf`, `⊤` is `+inf`, negative zero maps to
`0`).  `F.nan` is also sent to `⊥`, but every use is guarded by an `isNan`
test first, mirroring `partial_cmp` returning `None`. -/
def F.ext : F → WithBot (WithTop ℚ)
  | F.nan => ⊥
  | F.negInf => ⊥
  | F.posInf => ((⊤ : WithTop ℚ) : WithBot (WithTop ℚ))
  | F.negZero => (((0 : ℚ) : WithTop ℚ) : WithBot (WithTop ℚ))
  | F.val q => ((q : WithTop ℚ) : WithBot (WithTop ℚ))

/-- Rust `f64::is_finite`: finite values are the rationals and negative
zero. -/
def F.isFinite : F → Bool
  | F.negZero => true
  | F.val _ => true
  | _ => false

/-- The rational value of a finite float (junk `0` on NaN and the
infinities; only used behind `isFinite` guards). -/
def F.toRat : F → ℚ
  | F.val q => q
  | _ => 0

/-- IEEE `<` on `f64` as a Bool: false whenever either operand is NaN. -/
def fltb (a b : F) : Bool := !a.isNan && !b.isNan && decide (a.ext < b.ext)

/-- IEEE `<=` on `f64` as a Bool: false whenever either operand is NaN. -/
def fleb (a b : F) : Bool := !a.isNan && !b.isNan && decide (a.ext ≤ b.ext)

/-- IEEE `>` on `f64` as a Bool: false whenever either operand is NaN. -/
def fgtb (a b : F) : Bool := !a.isNan && !b.isNan && decide (b.ext < a.ext)

/-- IEEE `==` on `f64` as a Bool: false whenever either operand is NaN
(and `-0.0 == 0.0` holds, since both map to `0` under `F.ext`). -/
def feqb (a b : F) : Bool := !a.isNan && !b.isNan && decide (a.ext = b.ext)

/-- Rust `f64::partial_cmp`: `none` iff either operand is NaN, otherwise
the ordering of the values. -/
def fpcmp (a b : F) : Option Ordering :=
  if a.isNan || b.isNan then none
  else if a.ext < b.ext then some Ordering.lt
  else if b.ext < a.ext then some Ordering.gt
  else some Ordering.eq

/-- The largest finite `f64` magnitude, `f64::MAX = (2^53 - 1) * 2^971`,
as an exact rational. -/
def fmax : ℚ := (2 ^ 53 - 1) * 2 ^ 971

/-- The sign bit of a float (`true` for negative); the zeros carry their
signs.  The sign of NaN is never consulted. -/
def F.sign : F → Bool
  | F.nan => false
  | F.negInf => true
  | F.posInf => false
  | F.negZero => true
  | F.val q => decide (q < 0)

/-- Is the float one of the two zeros. -/
def F.isZero : F → Bool
  | F.negZero => true
  | F.val q => decide (q = 0)
  | _ => false

/-- Is the float one of the two infinities. -/
def F.isInf : F → Bool
  | F.negInf => true
  | F.posInf => true
  | _ => false

/-- Build the float for the exact rational result `q` of an arithmetic
operation whose IEEE result sign is `neg` (consulted only when `q = 0`):
the result overflows to the infinity of its sign when `|q|` exceeds
`f64::MAX`, and an exact zero result keeps the computed sign.  In-range
results are exact: IEEE round-to-nearest is not modelled, so a real `f64`
result inside the range can differ by a rounding error, and an exact
result in the narrow band between `f64::MAX` and `2^1024 - 2^970` rounds
down to `f64::MAX` in hardware but saturates to infinity here; theorems
and counterexamples stay outside that band. -/
def mkF (neg : Bool) (q : ℚ) : F :=
  if fmax < q then F.posInf
  else if q < -fmax then F.negInf
  else if q = 0 then (if neg then F.negZero else F.val 0)
  else F.val q

/-- IEEE `f64` subtraction: NaN propagates, `inf - inf` is NaN, an
infinite operand otherwise dominates, and a finite difference is exact up
to overflow (see `mkF`); an exactly zero difference is `+0.0` except for
`-0.0 - 0.0`. -/
def fsub (a b : F) : F :=
  if a.isNan || b.isNan then F.nan
  else
    match a, b with
    | F.posInf, F.posInf => F.nan
    | F.negInf, F.negInf => F.nan
    | F.posInf, _ => F.posInf
    | F.negInf, _ => F.negInf
    | _, F.posInf => F.negInf
    | _, F.negInf => F.posInf
    | a, b => mkF (a.sign && !b.sign) (a.toRat - b.toRat)

/-- IEEE `f64` division: NaN propagates, `inf / inf` and `0 / 0` are NaN,
an infinite dividend gives the signed infinity, an infinite divisor the
signed zero, a nonzero over zero the signed infinity; a finite quotient
is exact up to overflow (underflow to zero is not modelled, see
`mkF`). -/
def fdiv (a b : F) : F :=
  if a.isNan || b.isNan then F.nan
  else if a.isInf && b.isInf then F.nan
  else if a.isInf then (if a.sign = b.sign then F.posInf else F.negInf)
  else if b.isInf then (if a.sign = b.sign then F.val 0 else F.negZero)
  else if b.isZero then
    (if a.isZero then F.nan
     else if a.sign = b.sign then F.posInf else F.negInf)
  else mkF (a.sign != b.sign) (a.toRat / b.toRat)

/-- IEEE `f64` multiplication: NaN propagates, `inf * 0` is NaN, an
infinity times a nonzero value is the signed infinity, and a finite
product is exact up to overflow (see `mkF`); an exactly zero product
carries the XOR of the operand signs. -/
def fmul (a b : F) : F :=
  if a.isNan || b.isNan then F.nan
  else if a.isInf || b.isInf then
    (if a.isZero || b.isZero then F.nan
     else if a.sign = b.sign then F.posInf else F.negInf)
  else mkF (a.sign != b.sign) (a.toRat * b.toRat)

/-- The histogram state of `define_histogram!`: `n` is the compile-time
bin count `LEN`, `range` models the array `[f64; LEN + 1]` and `bin` the
array `[u64; LEN]`. -/
structure Histogram where
  n : ℕ
  range : List F
  bin : List ℕ
deriving DecidableEq

/-- Rust `slice::binary_search_by` on a slice of floats, restricted to the
index window `[left, right)`; `mid = left + (right - left) / 2` exactly as
in the standard library.  The comparator returning `none` models the
`unwrap` panic of `find`'s comparator on NaN; the whole search then
returns `none`.  `fuel` only drives structural recursion: every caller
passes `fuel ≥ right - left`, so the fuel-exhaustion branch is
unreachable (proved in `bsGo_spec`). -/
def bsGo (f : F → Option Ordering) (l : List F) : ℕ → ℕ → ℕ → Option (ℕ ⊕ ℕ)
  | 0, left, right => if left < right then none else some (Sum.inr left)
  | fuel + 1, left, right =>
    if left < right then
      match f (l.getD (left + (right - left) / 2) F.nan) with
      | none => none
      | some Ordering.lt => bsGo f l fuel (left + (right - left) / 2 + 1) right
      | some Ordering.gt => bsGo f l fuel left (left + (right - left) / 2)
      | some Ordering.eq => some (Sum.inl (left + (right - left) / 2))
    else some (Sum.inr left)

/-- `find` of the source: binary search over `self.range` with comparator
`|p| p.partial_cmp(&x).unwrap()`, then the guards `Ok(i) if i < LEN` and
`Err(i) if i > 0 && i < LEN + 1`.  Result: `none` models a panic (NaN
sample or NaN boundary), `some none` models `Err(())`
(`OutOfRangeError`), `some (some i)` models `Ok(i)`. -/
def Histogram.find (h : Histogram) (x : F) : Option (Option ℕ) :=
  match bsGo (fun p => fpcmp p x) h.range h.range.length 0 h.range.length with
  | none => none
  | some (Sum.inl i) => if i < h.n then some (some i) else some none
  | some (Sum.inr i) => if 0 < i ∧ i < h.n + 1 then some (some (i - 1)) else some none

/-- `with_const_width` of the source (parameters named `start` and `end`
there): `step = (end - start) / (LEN as f64)` and `range[i] = step * (i as
f64)` for `i` in `0 ..= LEN`, all bins zero. -/
def with_const_width (n : ℕ) (start stop : F) : Histogram :=
  let step := fdiv (fsub stop start) (F.val (n : ℚ))
  { n := n
    range := (List.range (n + 1)).map (fun i : ℕ => fmul step (F.val (i : ℚ)))
    bin := List.replicate n 0 }

/-- The loop of `from_ranges`: `l` is the rest of the input iterator, `i`
the current `enumerate` index, `range` the partially written array
(initially `[0.; LEN + 1]`), `lastI` the source's `last_i`.  Mirrors, in
order: the `i > LEN` break, the `is_nan` test, the `i > 0 &&
range[i - 1] > r` monotonicity test, then `range[i] = r; last_i = i`.
The final `last_i != LEN` test of the source appears both at the break
and at iterator exhaustion. -/
def fromRangesGo (n : ℕ) : List F → ℕ → List F → ℕ → Option (List F)
  | [], _, range, lastI => if lastI ≠ n then none else some range
  | r :: rest, i, range, lastI =>
    if n < i then (if lastI ≠ n then none else some range)
    else if r.isNan then none
    else if 0 < i ∧ fgtb (range.getD (i - 1) F.nan) r = true then none
    else fromRangesGo n rest (i + 1) (range.set i r) i

/-- `from_ranges` of the source: run the validation loop starting from the
zero-initialised boundary array; on success all bins are zero. -/
def from_ranges (n : ℕ) (l : List F) : Option Histogram :=
  (fromRangesGo n l 0 (List.replicate (n + 1) (F.val 0)) 0).map
    (fun range => { n := n, range := range, bin := List.replicate n 0 })

/-- `add` of the source: classify via `find`; on `Ok(i)` do
`self.bin[i] += 1` (u64 wrapping) and return `Ok(())`, on `Err` return
`Err(())` with the state untouched.  `none` models the panic that `find`
can raise on NaN; `some (true, h2)` models `Ok(())` with new state `h2`;
`some (false, h)` models `Err(())` (state unchanged). -/
def Histogram.add (h : Histogram) (x : F) : Option (Bool × Histogram) :=
  match h.find x with
  | none => none
  | some (some i) =>
      some (true, { h with bin := h.bin.set i ((h.bin.getD i 0 + 1) % 2 ^ 64) })
  | some none => some (false, h)

/-- `reset` of the source: `self.bin = [0; LEN]`. -/
def Histogram.reset (h : Histogram) : Histogram :=
  { h with bin := List.replicate h.n 0 }

/-- Element-wise IEEE `==` on boundary arrays, with the length equality
that the array types give for free in the source; this is what
`assert_eq!(self.range, other.range)` evaluates. -/
def rangesEqB : List F → List F → Bool
  | [], [] => true
  | a :: l1, b :: l2 => feqb a b && rangesEqB l1 l2
  | _, _ => false

/-- `add_assign` of the source (the merge operation, spec name
`merge_assign`): `assert_eq!(self.range, other.range)` — modelled as
`none` on assertion failure — then `self.bin[i] += other.bin[i]` for all
`i` (u64 wrapping addition). -/
def Histogram.add_assign (h other : Histogram) : Option Histogram :=
  if rangesEqB h.range other.range then
    some { h with bin := List.zipWith (fun a b => (a + b) % 2 ^ 64) h.bin other.bin }
  else none

/-- `mul_assign` of the source (the scale operation, spec name
`scale_assign`): `self.bin[i] *= factor` for all `i` (u64 wrapping
multiplication). -/
def Histogram.mul_assign (h : Histogram) (factor : ℕ) : Histogram :=
  { h with bin := h.bin.map (fun x => (x * factor) % 2 ^ 64) }

/-- The sequence produced by the source's `IterHistogram::next`: while a
bin remains, yield `((remaining_range[0], remaining_range[1]), bin)` and
advance both slices. -/
def iterToList : List ℕ → List F → List ((F × F) × ℕ)
  | [], _ => []
  | b :: rest, r => ((r.getD 0 F.nan, r.getD 1 F.nan), b) :: iterToList rest (List.drop 1 r)

/-- `iter` of the source, as the full (finite) sequence the iterator
yields; it reads the histogram through shared references and never
mutates it, which the model reflects by being a pure function of `h`. -/
def Histogram.iter (h : Histogram) : List ((F × F) × ℕ) := iterToList h.bin h.range

/-- No element of the list is NaN (index formulation). -/
def NoNanIdx (l : List F) : Prop :=
  ∀ j, j < l.length → (l.getD j F.nan).isNan = false

/-- The list is non-decreasing under the value order (global index
formulation). -/
def MonoIdx (l : List F) : Prop :=
  ∀ i j, i ≤ j → j < l.length → (l.getD i F.nan).ext ≤ (l.getD j F.nan).ext

/-- The list is strictly increasing under the value order (global index
formulation). -/
def StrictIdx (l : List F) : Prop :=
  ∀ i j, i < j → j < l.length → (l.getD i F.nan).ext < (l.getD j F.nan).ext

/-- Decidable check: no element of the list is NaN. -/
def noNanB (l : List F) : Bool := l.all (fun e => !e.isNan)

/-- Decidable check: adjacent boundaries satisfy IEEE `<=`. -/
def nondecB : List F → Bool
  | a :: b :: t => fleb a b && nondecB (b :: t)
  | _ => true

/-- Decidable check: adjacent boundaries satisfy IEEE `<`. -/
def strictIncB : List F → Bool
  | a :: b :: t => fltb a b && strictIncB (b :: t)
  | _ => true

/-- Some element of `l` is IEEE-greater than its predecessor, the
predecessor of the head being `prev`; this is the disjunction of the
monotonicity tests `from_ranges` performs after index `0`. -/
def decrFrom : F → List F → Bool
  | _, [] => false
  | prev, r :: rest => fgtb prev r || decrFrom r rest

/-- Some element of `l` is IEEE-greater than its predecessor. -/
def decrList : List F → Bool
  | [] => false
  | r :: rest => decrFrom r rest

/-- Write the elements of `l` into `range` at consecutive positions
starting at `i`; this is the cumulative effect of the `range[i] = r`
assignments of the `from_ranges` loop. -/
def overwriteFrom : ℕ → List F → List F → List F
  | _, [], range => range
  | i, r :: rest, range => overwriteFrom (i + 1) rest (range.set i r)

/-- Histogram states reachable through the public API: either constructor
(with the spec's `N ≥ 1`, finite endpoints and — the amendments of C7 —
`start ≤ end` and a non-overflowing difference `end - start ≤ f64::MAX`
for `with_const_width`), followed by any sequence of successful or failed
`add`, `reset`, merges with a histogram of the same compile-time size,
and scalings. -/
inductive Reachable : Histogram → Prop where
  | cw (n : ℕ) (s e : F) : 1 ≤ n → s.isFinite = true → e.isFinite = true →
      fleb s e = true → e.toRat - s.toRat ≤ fmax →
      Reachable (with_const_width n s e)
  | fr (n : ℕ) (l : List F) (h : Histogram) : 1 ≤ n → from_ranges n l = some h →
      Reachable h
  | addOk (h : Histogram) (x : F) (h2 : Histogram) : Reachable h →
      h.add x = some (true, h2) → Reachable h2
  | reset (h : Histogram) : Reachable h → Reachable h.reset
  | merge (h other h2 : Histogram) : Reachable h → other.n = h.n →
      other.bin.length = other.n → other.range.length = other.n + 1 →
      h.add_assign other = some h2 → Reachable h2
  | scale (h : Histogram) (k : ℕ) : Reachable h → Reachable (h.mul_assign k)

/-! ### Generic list access lemmas -/

theorem getD_mem {α : Type} : ∀ (l : List α) (j : ℕ) (d : α), j < l.length → l.getD j d ∈ l
  | [], _, _, h => absurd h (by simp)
  | a :: t, 0, _, _ => List.mem_cons_self a t
  | a :: t, j + 1, d, h => List.mem_cons_of_mem a (getD_mem t j d (by simpa using h))

theorem getD_set_self {α : Type} :
    ∀ (l : List α) (i : ℕ) (a d : α), i < l.length → (l.set i a).getD i d = a
  | [], _, _, _, h => absurd h (by simp)
  | _ :: _, 0, _, _, _ => rfl
  | _ :: t, i + 1, a, d, h => getD_set_self t i a d (by simpa using h)

theorem getD_set_ne {α : Type} :
    ∀ (l : List α) (i j : ℕ) (a d : α), j ≠ i → (l.set i a).getD j d = l.getD j d
  | [], _, _, _, _, _ => rfl
  | _ :: _, 0, 0, _, _, hne => absurd rfl hne
  | _ :: _, 0, _ + 1, _, _, _ => rfl
  | _ :: _, _ + 1, 0, _, _, _ => rfl
  | _ :: t, i + 1, j + 1, a, d, hne => getD_set_ne t i j a d (fun he => hne (by omega))

theorem getD_take {α : Type} :
    ∀ (l : List α) (k i : ℕ) (d : α), i < k → (l.take k).getD i d = l.getD i d
  | [], _, _, _, _ => by simp
  | _ :: _, _ + 1, 0, _, _ => rfl
  | _ :: t, k + 1, i + 1, d, h => getD_take t k i d (by omega)
  | _ :: _, 0, _, _, h => absurd h (by omega)

theorem getD_map {α β : Type} (f : α → β) :
    ∀ (l : List α) (i : ℕ) (d : α) (d2 : β), i < l.length → (l.map f).getD i d2 = f (l.getD i d)
  | [], _, _, _, h => absurd h (by simp)
  | _ :: _, 0, _, _, _ => rfl
  | _ :: t, i + 1, d, d2, h => getD_map f t i d d2 (by simpa using h)

theorem getD_drop_one {α : Type} :
    ∀ (l : List α) (i : ℕ) (d : α), (List.drop 1 l).getD i d = l.getD (i + 1) d
  | [], _, _ => by simp
  | _ :: _, _, _ => rfl

theorem getD_zipWith (f : ℕ → ℕ → ℕ) :
    ∀ (l1 l2 : List ℕ) (i : ℕ), i < l1.length → i < l2.length →
      (List.zipWith f l1 l2).getD i 0 = f (l1.getD i 0) (l2.getD i 0)
  | [], _, _, h, _ => absurd h (by simp)
  | _ :: _, [], _, _, h => absurd h (by simp)
  | _ :: _, _ :: _, 0, _, _ => rfl
  | _ :: t1, _ :: t2, i + 1, h1, h2 =>
      getD_zipWith f t1 t2 i (by simpa using h1) (by simpa using h2)

theorem getD_replicate {α : Type} :
    ∀ (n i : ℕ) (a d : α), i < n → (List.replicate n a).getD i d = a
  | _ + 1, 0, _, _, _ => rfl
  | n + 1, i + 1, a, d, h => getD_replicate n i a d (by omega)
  | 0, _, _, _, h => absurd h (by omega)

/-! ### Comparison helper characterisations -/

theorem fleb_iff (a b : F) :
    fleb a b = true ↔ a.isNan = false ∧ b.isNan = false ∧ a.ext ≤ b.ext := by
  simp [fleb, Bool.and_eq_true, and_assoc]

theorem fltb_iff (a b : F) :
    fltb a b = true ↔ a.isNan = false ∧ b.isNan = false ∧ a.ext < b.ext := by
  simp [fltb, Bool.and_eq_true, and_assoc]

theorem fgtb_iff (a b : F) :
    fgtb a b = true ↔ a.isNan = false ∧ b.isNan = false ∧ b.ext < a.ext := by
  simp [fgtb, Bool.and_eq_true, and_assoc]

theorem feqb_iff (a b : F) :
    feqb a b = true ↔ a.isNan = false ∧ b.isNan = false ∧ a.ext = b.ext := by
  simp [feqb, Bool.and_eq_true, and_assoc]

theorem noNanIdx_of_noNanB (l : List F) (hl : noNanB l = true) : NoNanIdx l := by
  intro j hj
  have hmem := getD_mem l j F.nan hj
  have := List.all_eq_true.mp hl _ hmem
  simpa using this

theorem nondecB_adj (l : List F) :
    nondecB l = true → ∀ i, i + 1 < l.length →
      (l.getD i F.nan).ext ≤ (l.getD (i + 1) F.nan).ext := by
  induction l with
  | nil => intro _ i hi; simp at hi
  | cons a t ih =>
    intro hl i hi
    cases t with
    | nil => simp at hi
    | cons b t2 =>
      have hab : fleb a b = true ∧ nondecB (b :: t2) = true := by
        simpa [nondecB, Bool.and_eq_true] using hl
      cases i with
      | zero => exact ((fleb_iff a b).mp hab.1).2.2
      | succ i => exact ih hab.2 i (by simpa using hi)

theorem strictIncB_adj (l : List F) :
    strictIncB l = true → ∀ i, i + 1 < l.length →
      (l.getD i F.nan).ext < (l.getD (i + 1) F.nan).ext := by
  induction l with
  | nil => intro _ i hi; simp at hi
  | cons a t ih =>
    intro hl i hi
    cases t with
    | nil => simp at hi
    | cons b t2 =>
      have hab : fltb a b = true ∧ strictIncB (b :: t2) = true := by
        simpa [strictIncB, Bool.and_eq_true] using hl
      cases i with
      | zero => exact ((fltb_iff a b).mp hab.1).2.2
      | succ i => exact ih hab.2 i (by simpa using hi)

theorem monoIdx_of_adj (l : List F)
    (hadj : ∀ i, i + 1 < l.length → (l.getD i F.nan).ext ≤ (l.getD (i + 1) F.nan).ext) :
    MonoIdx l := by
  intro i j hij
  induction j, hij using Nat.le_induction with
  | base => intro _; exact le_refl _
  | succ j hij ih => intro hj; exact le_trans (ih (by omega)) (hadj j hj)

theorem strictIdx_of_adj (l : List F)
    (hadj : ∀ i, i + 1 < l.length → (l.getD i F.nan).ext < (l.getD (i + 1) F.nan).ext) :
    StrictIdx l := by
  intro i j hij
  induction j, hij using Nat.le_induction with
  | base => intro hj; exact hadj i hj
  | succ j hij ih => intro hj; exact lt_trans (ih (by omega)) (hadj j hj)

/-! ### Binary search specification -/

theorem bsGo_zero (f : F → Option Ordering) (l : List F) (left right : ℕ) :
    bsGo f l 0 left right = if left < right then none else some (Sum.inr left) := rfl

theorem bsGo_succ (f : F → Option Ordering) (l : List F) (fuel left right : ℕ) :
    bsGo f l (fuel + 1) left right =
      if left < right then
        match f (l.getD (left + (right - left) / 2) F.nan) with
        | none => none
        | some Ordering.lt => bsGo f l fuel (left + (right - left) / 2 + 1) right
        | some Ordering.gt => bsGo f l fuel left (left + (right - left) / 2)
        | some Ordering.eq => some (Sum.inl (left + (right - left) / 2))
      else some (Sum.inr left) := rfl

theorem bsGo_stop (f : F → Option Ordering) (l : List F) (fuel left right : ℕ)
    (h : ¬ left < right) : bsGo f l (fuel + 1) left right = some (Sum.inr left) := by
  rw [bsGo_succ, if_neg h]

theorem bsGo_step_lt (f : F → Option Ordering) (l : List F) (fuel left right : ℕ)
    (h : left < right)
    (hc : f (l.getD (left + (right - left) / 2) F.nan) = some Ordering.lt) :
    bsGo f l (fuel + 1) left right = bsGo f l fuel (left + (right - left) / 2 + 1) right := by
  rw [bsGo_succ, if_pos h, hc]

theorem bsGo_step_gt (f : F → Option Ordering) (l : List F) (fuel left right : ℕ)
    (h : left < right)
    (hc : f (l.getD (left + (right - left) / 2) F.nan) = some Ordering.gt) :
    bsGo f l (fuel + 1) left right = bsGo f l fuel left (left + (right - left) / 2) := by
  rw [bsGo_succ, if_pos h, hc]

theorem bsGo_step_eq (f : F → Option Ordering) (l : List F) (fuel left right : ℕ)
    (h : left < right)
    (hc : f (l.getD (left + (right - left) / 2) F.nan) = some Ordering.eq) :
    bsGo f l (fuel + 1) left right = some (Sum.inl (left + (right - left) / 2)) := by
  rw [bsGo_succ, if_pos h, hc]

theorem bsGo_spec (x : F) (l : List F) (hx : x.isNan = false)
    (hl : NoNanIdx l) (hs : MonoIdx l) :
    ∀ fuel left right, right ≤ l.length → left ≤ right → right - left ≤ fuel →
      (∀ j, j < left → (l.getD j F.nan).ext < x.ext) →
      (∀ j, right ≤ j → j < l.length → x.ext < (l.getD j F.nan).ext) →
      ((∃ i, bsGo (fun p => fpcmp p x) l fuel left right = some (Sum.inl i) ∧
          i < l.length ∧ (l.getD i F.nan).ext = x.ext) ∨
       (∃ i, bsGo (fun p => fpcmp p x) l fuel left right = some (Sum.inr i) ∧
          i ≤ l.length ∧ (∀ j, j < i → (l.getD j F.nan).ext < x.ext) ∧
          (∀ j, i ≤ j → j < l.length → x.ext < (l.getD j F.nan).ext))) := by
  intro fuel
  induction fuel with
  | zero =>
    intro left right hrl hlr hf hlo hhi
    have hnlt : ¬ left < right := by omega
    right
    exact ⟨left, by rw [bsGo_zero, if_neg hnlt], by omega, hlo,
      fun j hj hjl => hhi j (by omega) hjl⟩
  | succ fuel ih =>
    intro left right hrl hlr hf hlo hhi
    by_cases hcmp : left < right
    · have hd2 : (right - left) / 2 < right - left := Nat.div_lt_self (by omega) (by omega)
      have hmlt : left + (right - left) / 2 < right := by omega
      have hmlen : left + (right - left) / 2 < l.length := by omega
      have hmnan : (l.getD (left + (right - left) / 2) F.nan).isNan = false := hl _ hmlen
      rcases lt_trichotomy ((l.getD (left + (right - left) / 2) F.nan).ext) x.ext with
        hltm | heqm | hgtm
      · have hcm : fpcmp (l.getD (left + (right - left) / 2) F.nan) x = some Ordering.lt := by
          unfold fpcmp
          rw [hmnan, hx, if_neg (by simp), if_pos hltm]
        rw [bsGo_step_lt _ _ _ _ _ hcmp hcm]
        refine ih (left + (right - left) / 2 + 1) right hrl (by omega) (by omega) ?_ hhi
        intro j hj
        rcases Nat.lt_or_ge j left with hjl | hjl
        · exact hlo j hjl
        · exact lt_of_le_of_lt (hs j _ (by omega) hmlen) hltm
      · have hnlt2 : ¬ (l.getD (left + (right - left) / 2) F.nan).ext < x.ext := by
          rw [heqm]; exact lt_irrefl _
        have hngt2 : ¬ x.ext < (l.getD (left + (right - left) / 2) F.nan).ext := by
          rw [heqm]; exact lt_irrefl _
        have hcm : fpcmp (l.getD (left + (right - left) / 2) F.nan) x = some Ordering.eq := by
          unfold fpcmp
          rw [hmnan, hx, if_neg (by simp), if_neg hnlt2, if_neg hngt2]
        rw [bsGo_step_eq _ _ _ _ _ hcmp hcm]
        exact Or.inl ⟨left + (right - left) / 2, rfl, hmlen, heqm⟩
      · have hnlt2 : ¬ (l.getD (left + (right - left) / 2) F.nan).ext < x.ext :=
          not_lt.mpr (le_of_lt hgtm)
        have hcm : fpcmp (l.getD (left + (right - left) / 2) F.nan) x = some Ordering.gt := by
          unfold fpcmp
          rw [hmnan, hx, if_neg (by simp), if_neg hnlt2, if_pos hgtm]
        rw [bsGo_step_gt _ _ _ _ _ hcmp hcm]
        refine ih left (left + (right - left) / 2) (by omega) (by omega) (by omega) hlo ?_
        intro j hj hjl
        exact lt_of_lt_of_le hgtm (hs _ j hj hjl)
    · rw [bsGo_stop _ _ _ _ _ hcmp]
      right
      exact ⟨left, rfl, by omega, hlo, fun j hj hjl => hhi j (by omega) hjl⟩

/-! ### Characterisation of `find` -/

theorem find_eq_of_none (h : Histogram) (x : F)
    (hbs : bsGo (fun p => fpcmp p x) h.range h.range.length 0 h.range.length = none) :
    h.find x = none := by
  unfold Histogram.find
  rw [hbs]

theorem find_eq_of_inl (h : Histogram) (x : F) (i : ℕ)
    (hbs : bsGo (fun p => fpcmp p x) h.range h.range.length 0 h.range.length =
      some (Sum.inl i)) :
    h.find x = if i < h.n then some (some i) else some none := by
  unfold Histogram.find
  rw [hbs]

theorem find_eq_of_inr (h : Histogram) (x : F) (i : ℕ)
    (hbs : bsGo (fun p => fpcmp p x) h.range h.range.length 0 h.range.length =
      some (Sum.inr i)) :
    h.find x = if 0 < i ∧ i < h.n + 1 then some (some (i - 1)) else some none := by
  unfold Histogram.find
  rw [hbs]

theorem find_cases (h : Histogram) (x : F) (hlen : h.range.length = h.n + 1)
    (hnn : NoNanIdx h.range) (hmono : MonoIdx h.range) (hx : x.isNan = false) :
    (∃ i, h.find x = some (some i) ∧ i < h.n ∧
        (h.range.getD i F.nan).ext ≤ x.ext ∧
        (x.ext < (h.range.getD (i + 1) F.nan).ext ∨ (h.range.getD i F.nan).ext = x.ext)) ∨
    (h.find x = some none ∧
        (x.ext < (h.range.getD 0 F.nan).ext ∨ (h.range.getD h.n F.nan).ext ≤ x.ext)) := by
  rcases bsGo_spec x h.range hx hnn hmono h.range.length 0 h.range.length le_rfl
      (by omega) (by omega) (fun j hj => absurd hj (by omega))
      (fun j hj hjl => absurd hjl (by omega)) with ⟨i, hbs, hilen, hext⟩ | ⟨i, hbs, hile, hlo, hhi⟩
  · by_cases hi : i < h.n
    · exact Or.inl ⟨i, by rw [find_eq_of_inl h x i hbs, if_pos hi], hi, le_of_eq hext,
        Or.inr hext⟩
    · have hieq : i = h.n := by omega
      refine Or.inr ⟨by rw [find_eq_of_inl h x i hbs, if_neg hi], Or.inr ?_⟩
      rw [← hieq]
      exact le_of_eq hext
  · by_cases hg : 0 < i ∧ i < h.n + 1
    · have hi1 : i - 1 + 1 = i := by omega
      refine Or.inl ⟨i - 1, by rw [find_eq_of_inr h x i hbs, if_pos hg], by omega,
        le_of_lt (hlo (i - 1) (by omega)), Or.inl ?_⟩
      rw [hi1]
      exact hhi i le_rfl (by omega)
    · have hcase : i = 0 ∨ i = h.n + 1 := by omega
      rcases hcase with h0 | hN
      · refine Or.inr ⟨by rw [find_eq_of_inr h x i hbs, if_neg hg], Or.inl ?_⟩
        subst h0
        exact hhi 0 le_rfl (by omega)
      · exact Or.inr ⟨by rw [find_eq_of_inr h x i hbs, if_neg hg],
          Or.inr (le_of_lt (hlo h.n (by omega)))⟩

/-- C1, claim as stated is refuted: `ranges = [0, 1, 1, 1, 2]` is
non-decreasing and NaN-free, `x = 1` satisfies `ranges[0] <= x <
ranges[4]`, yet `find` returns index `2` and `x < ranges[3]` fails (bin 2
is the empty interval `[1, 1)`). -/
theorem c1_counterexample :
    noNanB [F.val 0, F.val 1, F.val 1, F.val 1, F.val 2] = true ∧
    nondecB [F.val 0, F.val 1, F.val 1, F.val 1, F.val 2] = true ∧
    fleb ([F.val 0, F.val 1, F.val 1, F.val 1, F.val 2].getD 0 F.nan) (F.val 1) = true ∧
    fltb (F.val 1) ([F.val 0, F.val 1, F.val 1, F.val 1, F.val 2].getD 4 F.nan) = true ∧
    Histogram.find ⟨4, [F.val 0, F.val 1, F.val 1, F.val 1, F.val 2], [0, 0, 0, 0]⟩ (F.val 1) =
      some (some 2) ∧
    fltb (F.val 1) ([F.val 0, F.val 1, F.val 1, F.val 1, F.val 2].getD 3 F.nan) = false := by
  decide

/-- C1 (amended): for every histogram with `N + 1` non-decreasing NaN-free
boundaries and every non-NaN `x` with `ranges[0] <= x < ranges[N]`,
`find(x)` succeeds and returns `i < N` with `ranges[i] <= x`, and either
`x < ranges[i + 1]` or `x == ranges[i]` (the second disjunct can fail the
original `x < ranges[i + 1]` only at a duplicated boundary). -/
theorem c1_find_bracketing (h : Histogram) (x : F)
    (hlen : h.range.length = h.n + 1)
    (hnn : noNanB h.range = true) (hnd : nondecB h.range = true)
    (hlo : fleb (h.range.getD 0 F.nan) x = true)
    (hhi : fltb x (h.range.getD h.n F.nan) = true) :
    ∃ i, h.find x = some (some i) ∧ i < h.n ∧
      fleb (h.range.getD i F.nan) x = true ∧
      (fltb x (h.range.getD (i + 1) F.nan) = true ∨
        feqb (h.range.getD i F.nan) x = true) := by
  have hnnI := noNanIdx_of_noNanB h.range hnn
  have hmono := monoIdx_of_adj h.range (nondecB_adj h.range hnd)
  have hx : x.isNan = false := ((fleb_iff _ _).mp hlo).2.1
  have hloE := ((fleb_iff _ _).mp hlo).2.2
  have hhiE := ((fltb_iff _ _).mp hhi).2.2
  rcases find_cases h x hlen hnnI hmono hx with ⟨i, hf, hi, hle, hcase⟩ | ⟨hf, hout⟩
  · refine ⟨i, hf, hi, (fleb_iff _ _).mpr ⟨hnnI i (by omega), hx, hle⟩, ?_⟩
    rcases hcase with hlt | heq
    · exact Or.inl ((fltb_iff _ _).mpr ⟨hx, hnnI (i + 1) (by omega), hlt⟩)
    · exact Or.inr ((feqb_iff _ _).mpr ⟨hnnI i (by omega), hx, heq⟩)
  · rcases hout with hlt0 | hgeN
    · exact absurd hloE (not_le.mpr hlt0)
    · exact absurd hhiE (not_lt.mpr hgeN)

/-- Witness for `c1_find_bracketing` at `ranges = [0, 5, 10]`, `x = 7`. -/
theorem c1_witness :
    ∃ i, Histogram.find ⟨2, [F.val 0, F.val 5, F.val 10], [0, 0]⟩ (F.val 7) =
        some (some i) ∧ i < 2 ∧
      fleb (([F.val 0, F.val 5, F.val 10] : List F).getD i F.nan) (F.val 7) = true ∧
      (fltb (F.val 7) (([F.val 0, F.val 5, F.val 10] : List F).getD (i + 1) F.nan) = true ∨
        feqb (([F.val 0, F.val 5, F.val 10] : List F).getD i F.nan) (F.val 7) = true) :=
  c1_find_bracketing ⟨2, [F.val 0, F.val 5, F.val 10], [0, 0]⟩ (F.val 7)
    (by decide) (by decide) (by decide) (by decide) (by decide)

/-- C3, claim as stated is refuted: `ranges = [0, 1, 1]` is valid
(non-decreasing, NaN-free), `x = 1` equals `ranges[N]`, so the claim says
`find(ranges[N])` fails; but `find` returns `Ok(1)`. -/
theorem c3_counterexample :
    noNanB [F.val 0, F.val 1, F.val 1] = true ∧
    nondecB [F.val 0, F.val 1, F.val 1] = true ∧
    fleb ([F.val 0, F.val 1, F.val 1].getD 2 F.nan) (F.val 1) = true ∧
    Histogram.find ⟨2, [F.val 0, F.val 1, F.val 1], [0, 0]⟩ (F.val 1) = some (some 1) := by
  decide

/-- C3 (amended): for a histogram whose boundaries are strictly
increasing (rather than merely non-decreasing) and NaN-free, and a
non-NaN sample `x`: `find(x)` fails with `OutOfRangeError` iff
`x < ranges[0]` or `x >= ranges[N]`; with merely non-decreasing
boundaries `find(ranges[N])` may instead succeed at a duplicated top
boundary. -/
theorem c3_out_of_range_iff (h : Histogram) (x : F)
    (hlen : h.range.length = h.n + 1)
    (hnn : noNanB h.range = true) (hst : strictIncB h.range = true)
    (hx : x.isNan = false) :
    h.find x = some none ↔
      (fltb x (h.range.getD 0 F.nan) = true ∨ fleb (h.range.getD h.n F.nan) x = true) := by
  have hnnI := noNanIdx_of_noNanB h.range hnn
  have hstr := strictIdx_of_adj h.range (strictIncB_adj h.range hst)
  have hmono : MonoIdx h.range := by
    intro i j hij hj
    rcases eq_or_lt_of_le hij with he | hl2
    · subst he; exact le_refl _
    · exact le_of_lt (hstr i j hl2 hj)
  constructor
  · intro hf
    rcases find_cases h x hlen hnnI hmono hx with ⟨i, hf2, _, _, _⟩ | ⟨_, hout⟩
    · rw [hf] at hf2
      exact absurd hf2 (by simp)
    · rcases hout with hl | hg
      · exact Or.inl ((fltb_iff _ _).mpr ⟨hx, hnnI 0 (by omega), hl⟩)
      · exact Or.inr ((fleb_iff _ _).mpr ⟨hnnI h.n (by omega), hx, hg⟩)
  · intro hout
    rcases find_cases h x hlen hnnI hmono hx with ⟨i, hf2, hi, hle, hcase⟩ | ⟨hf2, _⟩
    · exfalso
      rcases hout with hl | hg
      · have hl2 := ((fltb_iff _ _).mp hl).2.2
        have hm0 : (h.range.getD 0 F.nan).ext ≤ (h.range.getD i F.nan).ext :=
          hmono 0 i (by omega) (by omega)
        exact absurd (le_trans hm0 hle) (not_le.mpr hl2)
      · have hg2 := ((fleb_iff _ _).mp hg).2.2
        rcases hcase with hlt | heq
        · have hmN : (h.range.getD (i + 1) F.nan).ext ≤ (h.range.getD h.n F.nan).ext :=
            hmono (i + 1) h.n (by omega) (by omega)
          exact lt_irrefl _ (lt_of_lt_of_le hlt (le_trans hmN hg2))
        · have hlt2 : (h.range.getD i F.nan).ext < (h.range.getD h.n F.nan).ext :=
            hstr i h.n hi (by omega)
          have hxx := lt_of_lt_of_le hlt2 hg2
          rw [heq] at hxx
          exact lt_irrefl _ hxx
    · exact hf2

/-- Witness for `c3_out_of_range_iff`: with strictly increasing
boundaries `[0, 5, 10]`, `find(10) = find(ranges[N])` fails. -/
theorem c3_witness :
    Histogram.find ⟨2, [F.val 0, F.val 5, F.val 10], [0, 0]⟩ (F.val 10) = some none :=
  (c3_out_of_range_iff ⟨2, [F.val 0, F.val 5, F.val 10], [0, 0]⟩ (F.val 10)
    (by decide) (by decide) (by decide) (by decide)).mpr (Or.inr (by decide))

/-! ### Constructor, scale and iteration claims -/

theorem getD_range (n i : ℕ) (h : i < n) : (List.range n).getD i 0 = i := by
  rw [List.getD_eq_getElem?_getD, List.getElem?_range h]
  rfl

/-! ### Float arithmetic evaluation lemmas -/

theorem fmax_pos : 0 < fmax := by norm_num [fmax]

theorem fmax_ge_one : (1 : ℚ) ≤ fmax := by norm_num [fmax]

theorem finite_not_nan (a : F) (h : a.isFinite = true) : a.isNan = false := by
  cases a
  case nan => exact absurd h (by simp [F.isFinite])
  case negInf => exact absurd h (by simp [F.isFinite])
  case posInf => exact absurd h (by simp [F.isFinite])
  case negZero => rfl
  case val => rfl

theorem finite_not_inf (a : F) (h : a.isFinite = true) : a.isInf = false := by
  cases a
  case nan => exact absurd h (by simp [F.isFinite])
  case negInf => exact absurd h (by simp [F.isFinite])
  case posInf => exact absurd h (by simp [F.isFinite])
  case negZero => rfl
  case val => rfl

theorem val_ext_le (a b : ℚ) : (F.val a).ext ≤ (F.val b).ext ↔ a ≤ b := by
  show (((a : WithTop ℚ) : WithBot (WithTop ℚ)) ≤ ((b : WithTop ℚ) : WithBot (WithTop ℚ))) ↔
    a ≤ b
  rw [WithBot.coe_le_coe, WithTop.coe_le_coe]

theorem coe2_le (a b : ℚ) :
    (((a : WithTop ℚ) : WithBot (WithTop ℚ)) ≤ ((b : WithTop ℚ) : WithBot (WithTop ℚ))) ↔
      a ≤ b := by
  rw [WithBot.coe_le_coe, WithTop.coe_le_coe]

theorem finite_ext (a : F) (ha : a.isFinite = true) :
    a.ext = ((a.toRat : WithTop ℚ) : WithBot (WithTop ℚ)) := by
  cases a with
  | negZero => rfl
  | val q => rfl
  | nan => simp [F.isFinite] at ha
  | negInf => simp [F.isFinite] at ha
  | posInf => simp [F.isFinite] at ha

theorem finite_toRat_le (s e : F) (hs : s.isFinite = true) (he : e.isFinite = true)
    (hle : fleb s e = true) : s.toRat ≤ e.toRat := by
  have h := ((fleb_iff s e).mp hle).2.2
  rw [finite_ext s hs, finite_ext e he] at h
  exact_mod_cast h

theorem mkF_finite (neg : Bool) (q : ℚ) (hlo : -fmax ≤ q) (hhi : q ≤ fmax) :
    (mkF neg q).isFinite = true ∧ (mkF neg q).toRat = q := by
  unfold mkF
  rw [if_neg (not_lt.mpr hhi), if_neg (not_lt.mpr hlo)]
  by_cases hq : q = 0
  · rw [if_pos hq]
    cases neg
    · exact ⟨rfl, hq.symm⟩
    · exact ⟨rfl, hq.symm⟩
  · rw [if_neg hq]
    exact ⟨rfl, rfl⟩

theorem fsub_finite (a b : F) (ha : a.isFinite = true) (hb : b.isFinite = true)
    (hlo : -fmax ≤ a.toRat - b.toRat) (hhi : a.toRat - b.toRat ≤ fmax) :
    (fsub a b).isFinite = true ∧ (fsub a b).toRat = a.toRat - b.toRat := by
  have hna : a.isNan = false := finite_not_nan a ha
  have hnb : b.isNan = false := finite_not_nan b hb
  have hfs : fsub a b = mkF (a.sign && !b.sign) (a.toRat - b.toRat) := by
    unfold fsub
    rw [hna, hnb, if_neg (by simp)]
    cases a <;> cases b <;>
      first
      | rfl
      | simp [F.isFinite] at ha hb
  rw [hfs]
  exact mkF_finite _ _ hlo hhi

theorem fdiv_finite (a : F) (n : ℕ) (hn : 1 ≤ n) (ha : a.isFinite = true)
    (hlo : -fmax ≤ a.toRat) (hhi : a.toRat ≤ fmax) :
    (fdiv a (F.val (n : ℚ))).isFinite = true ∧
    (fdiv a (F.val (n : ℚ))).toRat = a.toRat / (n : ℚ) := by
  have hna : a.isNan = false := finite_not_nan a ha
  have hnia : a.isInf = false := finite_not_inf a ha
  have hnq : (0 : ℚ) < (n : ℚ) := by exact_mod_cast hn
  have hn1 : (1 : ℚ) ≤ (n : ℚ) := by exact_mod_cast hn
  have hd : fdiv a (F.val (n : ℚ)) =
      mkF (a.sign != (F.val (n : ℚ)).sign) (a.toRat / (n : ℚ)) := by
    unfold fdiv
    rw [hna, hnia, if_neg (by simp [F.isNan]), if_neg (by simp),
      if_neg (by simp),
      if_neg (show ¬ (F.val (n : ℚ)).isInf = true from by simp [F.isInf]),
      if_neg (show ¬ (F.val (n : ℚ)).isZero = true from by
        simp only [F.isZero, decide_eq_true_eq]
        intro hc
        rw [Nat.cast_eq_zero] at hc
        omega)]
    rfl
  rw [hd]
  have h2 : fmax * 1 ≤ fmax * (n : ℚ) :=
    mul_le_mul_of_nonneg_left hn1 (le_of_lt fmax_pos)
  refine mkF_finite _ _ ?_ ?_
  · rw [le_div_iff₀ hnq]
    linarith
  · rw [div_le_iff₀ hnq]
    linarith

theorem fmul_finite (a b : F) (ha : a.isFinite = true) (hb : b.isFinite = true)
    (hlo : -fmax ≤ a.toRat * b.toRat) (hhi : a.toRat * b.toRat ≤ fmax) :
    (fmul a b).isFinite = true ∧ (fmul a b).toRat = a.toRat * b.toRat := by
  have hna : a.isNan = false := finite_not_nan a ha
  have hnb : b.isNan = false := finite_not_nan b hb
  have hnia : a.isInf = false := finite_not_inf a ha
  have hnib : b.isInf = false := finite_not_inf b hb
  have hm : fmul a b = mkF (a.sign != b.sign) (a.toRat * b.toRat) := by
    unfold fmul
    rw [hna, hnb, hnia, hnib, if_neg (by simp), if_neg (by simp)]
  rw [hm]
  exact mkF_finite _ _ hlo hhi

theorem step_mul_bounds (d : ℚ) (n i : ℕ) (hn : 1 ≤ n) (hi : i ≤ n)
    (hlo : -fmax ≤ d) (hhi : d ≤ fmax) :
    -fmax ≤ d / (n : ℚ) * (i : ℚ) ∧ d / (n : ℚ) * (i : ℚ) ≤ fmax := by
  have hn0 : (0 : ℚ) < (n : ℚ) := by exact_mod_cast hn
  have hi0 : (0 : ℚ) ≤ (i : ℚ) := by positivity
  have hin : ((i : ℕ) : ℚ) ≤ ((n : ℕ) : ℚ) := by exact_mod_cast hi
  constructor
  · rw [div_mul_eq_mul_div, le_div_iff₀ hn0]
    have t1 : 0 ≤ (fmax + d) * (i : ℚ) := mul_nonneg (by linarith) hi0
    have t2 : 0 ≤ fmax * ((n : ℚ) - (i : ℚ)) :=
      mul_nonneg (le_of_lt fmax_pos) (by linarith)
    nlinarith [t1, t2]
  · rw [div_mul_eq_mul_div, div_le_iff₀ hn0]
    have t1 : 0 ≤ (fmax - d) * (i : ℚ) := mul_nonneg (by linarith) hi0
    have t2 : 0 ≤ fmax * ((n : ℚ) - (i : ℚ)) :=
      mul_nonneg (le_of_lt fmax_pos) (by linarith)
    nlinarith [t1, t2]

theorem cw_getD (n : ℕ) (s e : F) (i : ℕ) (hi : i ≤ n) :
    (with_const_width n s e).range.getD i F.nan =
      fmul (fdiv (fsub e s) (F.val (n : ℚ))) (F.val (i : ℚ)) := by
  simp only [with_const_width]
  rw [getD_map (fun j : ℕ => fmul (fdiv (fsub e s) (F.val (n : ℚ))) (F.val (j : ℚ)))
    (List.range (n + 1)) i 0 F.nan (by rw [List.length_range]; omega),
    getD_range (n + 1) i (by omega)]

theorem cw_boundary (n : ℕ) (s e : F) (i : ℕ) (hn : 1 ≤ n) (hi : i ≤ n)
    (hs : s.isFinite = true) (he : e.isFinite = true)
    (hlo : -fmax ≤ e.toRat - s.toRat) (hhi : e.toRat - s.toRat ≤ fmax) :
    ((with_const_width n s e).range.getD i F.nan).isFinite = true ∧
    ((with_const_width n s e).range.getD i F.nan).toRat =
      (e.toRat - s.toRat) / (n : ℚ) * (i : ℚ) := by
  obtain ⟨h1, h2⟩ := fsub_finite e s he hs hlo hhi
  obtain ⟨h3, h4⟩ := fdiv_finite (fsub e s) n hn h1 (by rw [h2]; exact hlo)
    (by rw [h2]; exact hhi)
  rw [h2] at h4
  obtain ⟨hb1, hb2⟩ := step_mul_bounds (e.toRat - s.toRat) n i hn hi hlo hhi
  have h5 := fmul_finite (fdiv (fsub e s) (F.val (n : ℚ))) (F.val (i : ℚ)) h3 rfl
    (by rw [h4]; exact hb1) (by rw [h4]; exact hb2)
  rw [cw_getD n s e i hi]
  refine ⟨h5.1, ?_⟩
  rw [h5.2, h4]
  rfl

/-- The overflow corner of `with_const_width`: with the finite endpoints
`start = -f64::MAX` and `end = f64::MAX`, the subtraction overflows to
`+inf`, the step is `+inf`, and the first boundary `inf * 0` is NaN. -/
theorem cw_overflow_nan :
    (with_const_width 1 (F.val (-fmax)) (F.val fmax)).range.getD 0 F.nan = F.nan := by
  rw [cw_getD 1 (F.val (-fmax)) (F.val fmax) 0 (by omega)]
  have h1 : fsub (F.val fmax) (F.val (-fmax)) = F.posInf := by
    unfold fsub
    rw [if_neg (by simp [F.isNan])]
    show mkF ((F.val fmax).sign && !(F.val (-fmax)).sign)
      ((F.val fmax).toRat - (F.val (-fmax)).toRat) = F.posInf
    unfold mkF
    rw [if_pos (show fmax < (F.val fmax).toRat - (F.val (-fmax)).toRat from by
      show fmax < fmax - -fmax
      have := fmax_pos
      linarith)]
  have h2 : fdiv F.posInf (F.val ((1 : ℕ) : ℚ)) = F.posInf := by
    unfold fdiv
    rw [if_neg (by simp [F.isNan]), if_neg (by simp [F.isInf]),
      if_pos (show F.posInf.isInf = true from rfl),
      if_pos (show F.posInf.sign = (F.val ((1 : ℕ) : ℚ)).sign from by
        show false = decide (((1 : ℕ) : ℚ) < 0)
        rw [decide_eq_false (by norm_num : ¬ ((1 : ℕ) : ℚ) < 0)])]
  have h3 : fmul F.posInf (F.val ((0 : ℕ) : ℚ)) = F.nan := by
    unfold fmul
    rw [if_neg (by simp [F.isNan]),
      if_pos (show (F.posInf.isInf || (F.val ((0 : ℕ) : ℚ)).isInf) = true from by
        simp [F.isInf]),
      if_pos (show (F.posInf.isZero || (F.val ((0 : ℕ) : ℚ)).isZero) = true from by
        simp [F.isZero])]
  rw [h1, h2, h3]

/-- C9: `mul_assign` (the spec's `scale_assign`) never fails, leaves the
ranges (and the bin count) unchanged, and sets every counter to
`bins[i] * k` modulo `2 ^ 64` — u64 wrapping multiplication. -/
theorem c9_scale (h : Histogram) (k : ℕ) (hk : k < 2 ^ 64) :
    (h.mul_assign k).range = h.range ∧ (h.mul_assign k).n = h.n ∧
    (h.mul_assign k).bin.length = h.bin.length ∧
    ∀ i, i < h.bin.length →
      (h.mul_assign k).bin.getD i 0 = (h.bin.getD i 0 * k) % 2 ^ 64 := by
  refine ⟨rfl, rfl, by simp [Histogram.mul_assign], ?_⟩
  intro i hi
  simp only [Histogram.mul_assign]
  exact getD_map _ _ i 0 0 hi

/-- Witness for `c9_scale` at a concrete histogram and factor. -/
theorem c9_witness :
    (Histogram.mul_assign ⟨2, [F.val 0, F.val 1, F.val 2], [3, 5]⟩ 7).range =
      [F.val 0, F.val 1, F.val 2] ∧
    (Histogram.mul_assign ⟨2, [F.val 0, F.val 1, F.val 2], [3, 5]⟩ 7).n = 2 ∧
    (Histogram.mul_assign ⟨2, [F.val 0, F.val 1, F.val 2], [3, 5]⟩ 7).bin.length = 2 ∧
    ∀ i, i < 2 → (Histogram.mul_assign ⟨2, [F.val 0, F.val 1, F.val 2], [3, 5]⟩ 7).bin.getD i 0 =
      (([3, 5] : List ℕ).getD i 0 * 7) % 2 ^ 64 :=
  c9_scale ⟨2, [F.val 0, F.val 1, F.val 2], [3, 5]⟩ 7 (by decide)

theorem iterToList_spec : ∀ (bin : List ℕ) (r : List F), bin.length < r.length →
    (iterToList bin r).length = bin.length ∧
    ∀ i, i < bin.length → (iterToList bin r).getD i ((F.nan, F.nan), 0) =
      ((r.getD i F.nan, r.getD (i + 1) F.nan), bin.getD i 0) := by
  intro bin
  induction bin with
  | nil => exact fun r _ => ⟨rfl, fun i hi => absurd hi (by simp)⟩
  | cons b rest ih =>
    intro r hlen
    have hlen2 : rest.length + 1 < r.length := by simpa using hlen
    have hrec := ih (List.drop 1 r) (by rw [List.length_drop]; omega)
    constructor
    · show (iterToList rest (List.drop 1 r)).length + 1 = rest.length + 1
      rw [hrec.1]
    · intro i hi
      cases i with
      | zero => rfl
      | succ i =>
        show (iterToList rest (List.drop 1 r)).getD i ((F.nan, F.nan), 0) = _
        rw [hrec.2 i (by simpa using hi), getD_drop_one, getD_drop_one]
        rfl

/-- C8: `iter()` yields exactly `N` elements, the `i`-th (in bin order)
being `((ranges[i], ranges[i + 1]), bins[i])`; the model's `iter` is a
pure function of the histogram (the source iterator only advances its own
borrowed slices), so consuming it leaves `ranges` and `bins` unchanged. -/
theorem c8_iter (h : Histogram) (hlen : h.range.length = h.n + 1)
    (hbl : h.bin.length = h.n) :
    h.iter.length = h.n ∧
    ∀ i, i < h.n → h.iter.getD i ((F.nan, F.nan), 0) =
      ((h.range.getD i F.nan, h.range.getD (i + 1) F.nan), h.bin.getD i 0) := by
  have hs := iterToList_spec h.bin h.range (by omega)
  constructor
  · unfold Histogram.iter
    rw [hs.1, hbl]
  · intro i hi
    unfold Histogram.iter
    rw [hs.2 i (by omega)]

/-- Witness for `c8_iter` at a concrete histogram. -/
theorem c8_witness :
    (Histogram.iter ⟨2, [F.val 0, F.val 1, F.val 2], [4, 9]⟩).length = 2 ∧
    ∀ i, i < 2 → (Histogram.iter ⟨2, [F.val 0, F.val 1, F.val 2], [4, 9]⟩).getD i
        ((F.nan, F.nan), 0) =
      ((([F.val 0, F.val 1, F.val 2] : List F).getD i F.nan,
        ([F.val 0, F.val 1, F.val 2] : List F).getD (i + 1) F.nan),
        ([4, 9] : List ℕ).getD i 0) :=
  c8_iter ⟨2, [F.val 0, F.val 1, F.val 2], [4, 9]⟩ (by decide) (by decide)

/-! ### Accumulation (`add`) -/

theorem add_eq_of_ok (h : Histogram) (x : F) (i : ℕ)
    (hf : h.find x = some (some i)) :
    h.add x = some (true, { h with bin := h.bin.set i ((h.bin.getD i 0 + 1) % 2 ^ 64) }) := by
  unfold Histogram.add
  rw [hf]

theorem add_eq_of_err (h : Histogram) (x : F) (hf : h.find x = some none) :
    h.add x = some (false, h) := by
  unfold Histogram.add
  rw [hf]

theorem find_ok_lt (h : Histogram) (x : F) (i : ℕ) (hf : h.find x = some (some i)) :
    i < h.n := by
  unfold Histogram.find at hf
  rcases hbs : bsGo (fun p => fpcmp p x) h.range h.range.length 0 h.range.length with _ | s
  · rw [hbs] at hf
    exact absurd hf (by simp)
  · rw [hbs] at hf
    rcases s with j | j
    · by_cases hj : j < h.n
      · have : some (some j) = some (some i) := by
          rw [← hf]
          exact (if_pos hj).symm
        have hji : j = i := by simpa using this
        omega
      · have : (some none : Option (Option ℕ)) = some (some i) := by
          rw [← hf]
          exact (if_neg hj).symm
        exact absurd this (by simp)
    · by_cases hj : 0 < j ∧ j < h.n + 1
      · have : some (some (j - 1)) = some (some i) := by
          rw [← hf]
          exact (if_pos hj).symm
        have hji : j - 1 = i := by simpa using this
        omega
      · have : (some none : Option (Option ℕ)) = some (some i) := by
          rw [← hf]
          exact (if_neg hj).symm
        exact absurd this (by simp)

/-- C4, claim as stated is refuted at a saturated counter: with
`bins = [2^64 - 1]`, `find(0)` returns `Ok(0)` but `add(0)` wraps the
counter to `0` rather than incrementing it to `2^64`. -/
theorem c4_counterexample :
    Histogram.find ⟨1, [F.val 0, F.val 1], [2 ^ 64 - 1]⟩ (F.val 0) = some (some 0) ∧
    Histogram.add ⟨1, [F.val 0, F.val 1], [2 ^ 64 - 1]⟩ (F.val 0) =
      some (true, ⟨1, [F.val 0, F.val 1], [0]⟩) ∧
    ¬ (0 : ℕ) = ([(2 ^ 64 - 1 : ℕ)] : List ℕ).getD 0 0 + 1 := by
  refine ⟨by decide, ?_, by decide⟩
  rw [add_eq_of_ok _ _ 0 (by decide)]
  decide

/-- C4 (amended): for every histogram (with `bins` of the typed length
`N`) and non-NaN sample: if `find(x) = Ok(i)` then `add(x)` succeeds and
sets `bins[i]` to `(bins[i] + 1) mod 2^64` — an increment by one with u64
wrapping at `2^64 - 1` — leaving every other bin, the ranges and the bin
count unchanged; if `find(x)` fails, `add(x)` returns the error and
leaves the whole state unchanged. -/
theorem c4_add (h : Histogram) (x : F) (hwf : h.bin.length = h.n)
    (hx : x.isNan = false) :
    (∀ i, h.find x = some (some i) →
      ∃ h2, h.add x = some (true, h2) ∧ h2.range = h.range ∧ h2.n = h.n ∧
        h2.bin.length = h.bin.length ∧
        h2.bin.getD i 0 = (h.bin.getD i 0 + 1) % 2 ^ 64 ∧
        ∀ j, j ≠ i → h2.bin.getD j 0 = h.bin.getD j 0) ∧
    (h.find x = some none → h.add x = some (false, h)) := by
  constructor
  · intro i hf
    have hi : i < h.bin.length := by
      rw [hwf]
      exact find_ok_lt h x i hf
    refine ⟨_, add_eq_of_ok h x i hf, rfl, rfl, by simp, ?_, ?_⟩
    · exact getD_set_self h.bin i _ 0 hi
    · intro j hj
      exact getD_set_ne h.bin i j _ 0 hj
  · exact add_eq_of_err h x

/-- Witness for `c4_add` at a concrete histogram where `add` succeeds. -/
theorem c4_witness :
    (∀ i, Histogram.find ⟨2, [F.val 0, F.val 5, F.val 10], [3, 4]⟩ (F.val 7) =
        some (some i) →
      ∃ h2, Histogram.add ⟨2, [F.val 0, F.val 5, F.val 10], [3, 4]⟩ (F.val 7) =
          some (true, h2) ∧
        h2.range = [F.val 0, F.val 5, F.val 10] ∧ h2.n = 2 ∧
        h2.bin.length = ([3, 4] : List ℕ).length ∧
        h2.bin.getD i 0 = (([3, 4] : List ℕ).getD i 0 + 1) % 2 ^ 64 ∧
        ∀ j, j ≠ i → h2.bin.getD j 0 = ([3, 4] : List ℕ).getD j 0) ∧
    (Histogram.find ⟨2, [F.val 0, F.val 5, F.val 10], [3, 4]⟩ (F.val 7) = some none →
      Histogram.add ⟨2, [F.val 0, F.val 5, F.val 10], [3, 4]⟩ (F.val 7) =
        some (false, ⟨2, [F.val 0, F.val 5, F.val 10], [3, 4]⟩)) :=
  c4_add ⟨2, [F.val 0, F.val 5, F.val 10], [3, 4]⟩ (F.val 7) (by decide) (by decide)

/-! ### Merge (`add_assign`) -/

theorem rangesEqB_iff : ∀ (l1 l2 : List F), rangesEqB l1 l2 = true ↔
    (l1.length = l2.length ∧
      ∀ i, i < l1.length → feqb (l1.getD i F.nan) (l2.getD i F.nan) = true) := by
  intro l1
  induction l1 with
  | nil =>
    intro l2
    cases l2 with
    | nil => simp [rangesEqB]
    | cons b t => simp [rangesEqB]
  | cons a t ih =>
    intro l2
    cases l2 with
    | nil => simp [rangesEqB]
    | cons b t2 =>
      rw [show rangesEqB (a :: t) (b :: t2) = (feqb a b && rangesEqB t t2) from rfl]
      constructor
      · intro hcc
        have h1 := (Bool.and_eq_true _ _).mp hcc
        have h2 := (ih t2).mp h1.2
        refine ⟨by simp [h2.1], ?_⟩
        intro i hi
        cases i with
        | zero => exact h1.1
        | succ i => exact h2.2 i (by simpa using hi)
      · intro hcc
        refine (Bool.and_eq_true _ _).mpr ⟨hcc.2 0 (by simp), (ih t2).mpr
          ⟨by simpa using hcc.1, ?_⟩⟩
        intro i hi
        exact hcc.2 (i + 1) (by simpa using hi)

theorem feqb_symm (a b : F) (h : feqb a b = true) : feqb b a = true := by
  rcases (feqb_iff a b).mp h with ⟨h1, h2, h3⟩
  exact (feqb_iff b a).mpr ⟨h2, h1, h3.symm⟩

theorem feqb_trans (a b c : F) (h1 : feqb a b = true) (h2 : feqb b c = true) :
    feqb a c = true := by
  rcases (feqb_iff a b).mp h1 with ⟨ha, hb, he⟩
  rcases (feqb_iff b c).mp h2 with ⟨h2b, hc, he2⟩
  exact (feqb_iff a c).mpr ⟨ha, hc, he.trans he2⟩

theorem rangesEqB_symm (l1 l2 : List F) (h : rangesEqB l1 l2 = true) :
    rangesEqB l2 l1 = true := by
  rcases (rangesEqB_iff l1 l2).mp h with ⟨hl, he⟩
  refine (rangesEqB_iff l2 l1).mpr ⟨hl.symm, ?_⟩
  intro i hi
  exact feqb_symm _ _ (he i (by omega))

theorem rangesEqB_trans (l1 l2 l3 : List F) (h1 : rangesEqB l1 l2 = true)
    (h2 : rangesEqB l2 l3 = true) : rangesEqB l1 l3 = true := by
  rcases (rangesEqB_iff l1 l2).mp h1 with ⟨hl1, he1⟩
  rcases (rangesEqB_iff l2 l3).mp h2 with ⟨hl2, he2⟩
  refine (rangesEqB_iff l1 l3).mpr ⟨hl1.trans hl2, ?_⟩
  intro i hi
  exact feqb_trans _ _ _ (he1 i hi) (he2 i (by omega))

theorem add_assign_eq (h o : Histogram) (hr : rangesEqB h.range o.range = true) :
    h.add_assign o =
      some { h with bin := List.zipWith (fun a b => (a + b) % 2 ^ 64) h.bin o.bin } := by
  unfold Histogram.add_assign
  rw [if_pos hr]

theorem mergeBins_comm : ∀ (l1 l2 : List ℕ),
    List.zipWith (fun a b => (a + b) % 2 ^ 64) l1 l2 =
      List.zipWith (fun a b => (a + b) % 2 ^ 64) l2 l1
  | [], [] => rfl
  | [], _ :: _ => rfl
  | _ :: _, [] => rfl
  | a :: t1, b :: t2 => by
    show ((a + b) % 2 ^ 64) :: _ = ((b + a) % 2 ^ 64) :: _
    rw [Nat.add_comm a b, mergeBins_comm t1 t2]

theorem mergeBins_assoc : ∀ (l1 l2 l3 : List ℕ),
    List.zipWith (fun a b => (a + b) % 2 ^ 64)
        (List.zipWith (fun a b => (a + b) % 2 ^ 64) l1 l2) l3 =
      List.zipWith (fun a b => (a + b) % 2 ^ 64) l1
        (List.zipWith (fun a b => (a + b) % 2 ^ 64) l2 l3)
  | [], _, _ => rfl
  | _ :: _, [], _ => rfl
  | _ :: _, _ :: _, [] => rfl
  | a :: t1, b :: t2, c :: t3 => by
    show (((a + b) % 2 ^ 64 + c) % 2 ^ 64) :: _ = ((a + (b + c) % 2 ^ 64) % 2 ^ 64) :: _
    rw [Nat.mod_add_mod, Nat.add_mod_mod, Nat.add_assoc, mergeBins_assoc t1 t2 t3]

/-- C6, claim as stated is refuted at a saturated counter: merging bins
`[2^64 - 1]` and `[1]` over identical ranges gives bin `0` (u64 wrapping),
not the integer sum `2^64`. -/
theorem c6_counterexample :
    Histogram.add_assign ⟨1, [F.val 0, F.val 1], [2 ^ 64 - 1]⟩
        ⟨1, [F.val 0, F.val 1], [1]⟩ = some ⟨1, [F.val 0, F.val 1], [0]⟩ ∧
    ¬ (0 : ℕ) = ([(2 ^ 64 - 1 : ℕ)] : List ℕ).getD 0 0 + ([(1 : ℕ)] : List ℕ).getD 0 0 := by
  constructor
  · rw [add_assign_eq _ _ (by decide)]
    decide
  · decide

/-- C6 (amended): over histograms with (IEEE-)equal ranges, `merge_assign`
keeps the ranges and sets each `bins[i]` to
`(h1.bins[i] + h2.bins[i]) mod 2^64` (u64 wrapping addition); the
resulting bin vector is the same regardless of argument order and of the
grouping of a three-way merge. -/
theorem c6_merge (h1 h2 h3 : Histogram)
    (hr12 : rangesEqB h1.range h2.range = true)
    (hr23 : rangesEqB h2.range h3.range = true) :
    ∃ h12 h21 h12x3 h23x h1x23,
      h1.add_assign h2 = some h12 ∧ h12.range = h1.range ∧ h12.n = h1.n ∧
      (∀ i, i < h1.bin.length → i < h2.bin.length →
        h12.bin.getD i 0 = (h1.bin.getD i 0 + h2.bin.getD i 0) % 2 ^ 64) ∧
      h2.add_assign h1 = some h21 ∧ h21.bin = h12.bin ∧
      h12.add_assign h3 = some h12x3 ∧
      h2.add_assign h3 = some h23x ∧ h1.add_assign h23x = some h1x23 ∧
      h12x3.bin = h1x23.bin := by
  have hr21 : rangesEqB h2.range h1.range = true := rangesEqB_symm _ _ hr12
  have hr13 : rangesEqB h1.range h3.range = true := rangesEqB_trans _ _ _ hr12 hr23
  refine ⟨_, _, _, _, _, add_assign_eq h1 h2 hr12, rfl, rfl, ?_,
    add_assign_eq h2 h1 hr21, mergeBins_comm h2.bin h1.bin,
    add_assign_eq _ h3 hr13, add_assign_eq h2 h3 hr23,
    add_assign_eq h1 _ hr12, mergeBins_assoc h1.bin h2.bin h3.bin⟩
  intro i hi1 hi2
  exact getD_zipWith _ h1.bin h2.bin i hi1 hi2

/-- Witness for `c6_merge` at concrete histograms over the same ranges. -/
theorem c6_witness :
    ∃ h12 h21 h12x3 h23x h1x23,
      Histogram.add_assign ⟨1, [F.val 0, F.val 1], [2]⟩ ⟨1, [F.val 0, F.val 1], [3]⟩ =
        some h12 ∧ h12.range = [F.val 0, F.val 1] ∧ h12.n = 1 ∧
      (∀ i, i < ([2] : List ℕ).length → i < ([3] : List ℕ).length →
        h12.bin.getD i 0 = (([2] : List ℕ).getD i 0 + ([3] : List ℕ).getD i 0) % 2 ^ 64) ∧
      Histogram.add_assign ⟨1, [F.val 0, F.val 1], [3]⟩ ⟨1, [F.val 0, F.val 1], [2]⟩ =
        some h21 ∧ h21.bin = h12.bin ∧
      h12.add_assign ⟨1, [F.val 0, F.val 1], [5]⟩ = some h12x3 ∧
      Histogram.add_assign ⟨1, [F.val 0, F.val 1], [3]⟩ ⟨1, [F.val 0, F.val 1], [5]⟩ =
        some h23x ∧
      Histogram.add_assign ⟨1, [F.val 0, F.val 1], [2]⟩ h23x = some h1x23 ∧
      h12x3.bin = h1x23.bin :=
  c6_merge ⟨1, [F.val 0, F.val 1], [2]⟩ ⟨1, [F.val 0, F.val 1], [3]⟩
    ⟨1, [F.val 0, F.val 1], [5]⟩ (by decide) (by decide)

/-- C10: the merge compatibility check is `assert_eq!` on the boundary
arrays, i.e. element-wise IEEE `==`; two histograms whose ranges agree
except that one has `-0.0` where the other has `+0.0` pass the assertion
and are merged (bins summed) rather than treated as a contract
violation. -/
theorem c10_merge_ieee_zero (h1 h2 : Histogram)
    (hlen : h1.range.length = h2.range.length)
    (hnn : noNanB h1.range = true)
    (hz : ∀ i, i < h1.range.length →
      h1.range.getD i F.nan = h2.range.getD i F.nan ∨
      (h1.range.getD i F.nan = F.negZero ∧ h2.range.getD i F.nan = F.val 0) ∨
      (h1.range.getD i F.nan = F.val 0 ∧ h2.range.getD i F.nan = F.negZero)) :
    ∃ hm, h1.add_assign h2 = some hm ∧ hm.range = h1.range ∧ hm.n = h1.n ∧
      hm.bin = List.zipWith (fun a b => (a + b) % 2 ^ 64) h1.bin h2.bin := by
  have hnnI := noNanIdx_of_noNanB h1.range hnn
  have hr : rangesEqB h1.range h2.range = true := by
    refine (rangesEqB_iff h1.range h2.range).mpr ⟨hlen, ?_⟩
    intro i hi
    have hn1 := hnnI i hi
    rcases hz i hi with heq | ⟨ha, hb⟩ | ⟨ha, hb⟩
    · refine (feqb_iff _ _).mpr ⟨hn1, ?_, by rw [heq]⟩
      rw [← heq]
      exact hn1
    · rw [ha, hb]
      decide
    · rw [ha, hb]
      decide
  exact ⟨_, add_assign_eq h1 h2 hr, rfl, rfl, rfl⟩

/-- Witness for `c10_merge_ieee_zero`: ranges `[-0.0, 1]` and `[0.0, 1]`
merge successfully, bins summed. -/
theorem c10_witness :
    ∃ hm, Histogram.add_assign ⟨1, [F.negZero, F.val 1], [2]⟩
        ⟨1, [F.val 0, F.val 1], [3]⟩ = some hm ∧
      hm.range = [F.negZero, F.val 1] ∧ hm.n = 1 ∧
      hm.bin = List.zipWith (fun a b => (a + b) % 2 ^ 64) [2] [3] :=
  c10_merge_ieee_zero ⟨1, [F.negZero, F.val 1], [2]⟩ ⟨1, [F.val 0, F.val 1], [3]⟩
    (by decide) (by decide) (by decide)

/-! ### `from_ranges` -/

theorem fromRangesGo_cons (n : ℕ) (r : F) (rest : List F) (i : ℕ) (range : List F)
    (lastI : ℕ) :
    fromRangesGo n (r :: rest) i range lastI =
      if n < i then (if lastI ≠ n then none else some range)
      else if r.isNan then none
      else if 0 < i ∧ fgtb (range.getD (i - 1) F.nan) r = true then none
      else fromRangesGo n rest (i + 1) (range.set i r) i := rfl

theorem overwriteFrom_length : ∀ (l : List F) (i : ℕ) (range : List F),
    (overwriteFrom i l range).length = range.length
  | [], _, _ => rfl
  | r :: rest, i, range => by
    show (overwriteFrom (i + 1) rest (range.set i r)).length = range.length
    rw [overwriteFrom_length rest (i + 1) (range.set i r), List.length_set]

theorem overwriteFrom_getD : ∀ (l : List F) (i : ℕ) (range : List F) (j : ℕ),
    i + l.length ≤ range.length →
    (overwriteFrom i l range).getD j F.nan =
      if i ≤ j ∧ j < i + l.length then l.getD (j - i) F.nan else range.getD j F.nan := by
  intro l
  induction l with
  | nil =>
    intro i range j hle
    rw [if_neg (by simp only [List.length_nil]; omega)]
    rfl
  | cons r rest ih =>
    intro i range j hle
    have hle2 : i + rest.length + 1 ≤ range.length := by
      simp only [List.length_cons] at hle
      omega
    have hilen : i < range.length := by omega
    show (overwriteFrom (i + 1) rest (range.set i r)).getD j F.nan = _
    rw [ih (i + 1) (range.set i r) j (by rw [List.length_set]; omega)]
    by_cases hc : i + 1 ≤ j ∧ j < i + 1 + rest.length
    · rw [if_pos hc, if_pos (by simp only [List.length_cons]; omega)]
      obtain ⟨k, hk⟩ : ∃ k, j - i = k + 1 := ⟨j - (i + 1), by omega⟩
      rw [hk, show j - (i + 1) = k from by omega]
      rfl
    · rw [if_neg hc]
      by_cases hji : j = i
      · subst hji
        rw [getD_set_self range j r F.nan hilen,
          if_pos (by simp only [List.length_cons]; omega)]
        rw [show j - j = 0 from by omega]
        rfl
      · rw [getD_set_ne range i j r F.nan hji,
          if_neg (by simp only [List.length_cons]; omega)]

theorem fromRangesGo_take (n : ℕ) : ∀ (l : List F) (i : ℕ) (range : List F) (lastI : ℕ),
    fromRangesGo n l i range lastI = fromRangesGo n (l.take (n + 1 - i)) i range lastI := by
  intro l
  induction l with
  | nil => intro i range lastI; rw [List.take_nil]
  | cons r rest ih =>
    intro i range lastI
    by_cases hni : n < i
    · have h0 : n + 1 - i = 0 := by omega
      rw [h0, List.take_zero, fromRangesGo_cons, if_pos hni]
      rfl
    · have h1 : n + 1 - i = (n - i) + 1 := by omega
      rw [h1, List.take_succ_cons, fromRangesGo_cons, fromRangesGo_cons,
        if_neg hni, if_neg hni]
      by_cases hrnan : r.isNan = true
      · rw [if_pos hrnan, if_pos hrnan]
      · rw [if_neg hrnan, if_neg hrnan]
        by_cases hdec : 0 < i ∧ fgtb (range.getD (i - 1) F.nan) r = true
        · rw [if_pos hdec, if_pos hdec]
        · rw [if_neg hdec, if_neg hdec]
          have hrec := ih (i + 1) (range.set i r) i
          rw [show n + 1 - (i + 1) = n - i from by omega] at hrec
          exact hrec

theorem fromRangesGo_spec (n : ℕ) : ∀ (l : List F) (i : ℕ) (range : List F),
    1 ≤ i → i + l.length ≤ n + 1 → range.length = n + 1 →
    fromRangesGo n l i range (i - 1) =
      if (l.any F.isNan || decrFrom (range.getD (i - 1) F.nan) l) = true then none
      else if i + l.length = n + 1 then some (overwriteFrom i l range) else none := by
  intro l
  induction l with
  | nil =>
    intro i range h1 h2 h3
    have hcond : (([] : List F).any F.isNan ||
        decrFrom (range.getD (i - 1) F.nan) ([] : List F)) = false := rfl
    show (if i - 1 ≠ n then none else some range) = _
    rw [hcond, if_neg (show ¬ (false = true) from by simp)]
    by_cases hin : i = n + 1
    · have hA : i + ([] : List F).length = n + 1 := by simpa using hin
      have hB : ¬ i - 1 ≠ n := by omega
      rw [if_pos hA, if_neg hB]
      rfl
    · have hA : ¬ i + ([] : List F).length = n + 1 := by simpa using hin
      have hB : i - 1 ≠ n := by omega
      rw [if_neg hA, if_pos hB]
  | cons r rest ih =>
    intro i range h1 h2 h3
    have h2b : i + rest.length + 1 ≤ n + 1 := by
      simp only [List.length_cons] at h2
      omega
    have hni : ¬ n < i := by omega
    rw [fromRangesGo_cons, if_neg hni]
    by_cases hrnan : r.isNan = true
    · rw [if_pos hrnan]
      have ha : (r :: rest).any F.isNan = true := by
        rw [List.any_cons, hrnan, Bool.true_or]
      have hA : ((r :: rest).any F.isNan ||
          decrFrom (range.getD (i - 1) F.nan) (r :: rest)) = true := by
        rw [ha, Bool.true_or]
      rw [if_pos hA]
    · have hrnanF : r.isNan = false := by
        rw [← Bool.not_eq_true]
        exact hrnan
      rw [if_neg hrnan]
      by_cases hg : fgtb (range.getD (i - 1) F.nan) r = true
      · rw [if_pos ⟨by omega, hg⟩]
        have hd : decrFrom (range.getD (i - 1) F.nan) (r :: rest) = true := by
          show (fgtb (range.getD (i - 1) F.nan) r || decrFrom r rest) = true
          rw [hg, Bool.true_or]
        have hA : ((r :: rest).any F.isNan ||
            decrFrom (range.getD (i - 1) F.nan) (r :: rest)) = true := by
          rw [hd, Bool.or_true]
        rw [if_pos hA]
      · have hgF : fgtb (range.getD (i - 1) F.nan) r = false := by
          rw [← Bool.not_eq_true]
          exact hg
        rw [if_neg (fun hc => hg hc.2)]
        have hrec := ih (i + 1) (range.set i r)
          (by omega) (by omega) (by rw [List.length_set]; exact h3)
        rw [Nat.add_sub_cancel,
          getD_set_self range i r F.nan (by omega)] at hrec
        rw [hrec]
        have hcondeq : ((r :: rest).any F.isNan ||
            decrFrom (range.getD (i - 1) F.nan) (r :: rest)) =
            (rest.any F.isNan || decrFrom r rest) := by
          show (r.isNan || rest.any F.isNan ||
            (fgtb (range.getD (i - 1) F.nan) r || decrFrom r rest)) = _
          rw [hrnanF, hgF, Bool.false_or, Bool.false_or]
        rw [hcondeq]
        refine if_congr Iff.rfl rfl (if_congr ?_ rfl rfl)
        constructor
        · intro hq
          simp only [List.length_cons]
          omega
        · intro hq
          simp only [List.length_cons] at hq
          omega

theorem from_ranges_char (n : ℕ) (l : List F) (hn : 1 ≤ n) :
    (from_ranges n l = none ↔
      ((l.take (n + 1)).any F.isNan = true ∨ decrList (l.take (n + 1)) = true ∨
        l.length < n + 1)) ∧
    (∀ h, from_ranges n l = some h →
      h.n = n ∧ h.range.length = n + 1 ∧ h.bin = List.replicate n 0 ∧
      ∀ j, j ≤ n → h.range.getD j F.nan = l.getD j F.nan) ∧
    from_ranges n l = from_ranges n (l.take (n + 1)) := by
  cases l with
  | nil =>
    have h0 : fromRangesGo n ([] : List F) 0 (List.replicate (n + 1) (F.val 0)) 0 = none := by
      show (if (0 : ℕ) ≠ n then none else some (List.replicate (n + 1) (F.val 0))) = none
      rw [if_pos (by omega)]
    have hfr : from_ranges n ([] : List F) = none := by
      unfold from_ranges
      rw [h0]
      rfl
    refine ⟨?_, ?_, by rw [List.take_nil]⟩
    · rw [hfr]
      simp [decrList]
    · intro h hsome
      rw [hfr] at hsome
      exact absurd hsome (by simp)
  | cons r rest =>
    have hrepl : (List.replicate (n + 1) (F.val 0)).length = n + 1 := List.length_replicate _ _
    by_cases hrnan : r.isNan = true
    · have hfr : ∀ l2 : List F, from_ranges n (r :: l2) = none := by
        intro l2
        unfold from_ranges
        rw [fromRangesGo_cons, if_neg (by omega), if_pos hrnan]
        rfl
      refine ⟨?_, ?_, ?_⟩
      · rw [hfr rest]
        have hany : (((r :: rest).take (n + 1)).any F.isNan) = true := by
          rw [List.take_succ_cons, List.any_cons, hrnan, Bool.true_or]
        exact ⟨fun _ => Or.inl hany, fun _ => rfl⟩
      · intro h hsome
        rw [hfr rest] at hsome
        exact absurd hsome (by simp)
      · rw [hfr rest, List.take_succ_cons, hfr (rest.take n)]
    · have hrnanF : r.isNan = false := by
        rw [← Bool.not_eq_true]
        exact hrnan
      have hC0 : ¬ ((0 : ℕ) < 0 ∧
          fgtb ((List.replicate (n + 1) (F.val 0)).getD (0 - 1) F.nan) r = true) := by
        intro hc
        exact absurd hc.1 (by omega)
      have hstep : ∀ l2 : List F,
          fromRangesGo n (r :: l2) 0 (List.replicate (n + 1) (F.val 0)) 0 =
          fromRangesGo n l2 1 ((List.replicate (n + 1) (F.val 0)).set 0 r) 0 := by
        intro l2
        rw [fromRangesGo_cons, if_neg (by omega), if_neg hrnan, if_neg hC0]
      have htake1 : ∀ l2 : List F,
          fromRangesGo n l2 1 ((List.replicate (n + 1) (F.val 0)).set 0 r) 0 =
          fromRangesGo n (l2.take n) 1 ((List.replicate (n + 1) (F.val 0)).set 0 r) 0 := by
        intro l2
        have h := fromRangesGo_take n l2 1 ((List.replicate (n + 1) (F.val 0)).set 0 r) 0
        rwa [Nat.add_sub_cancel] at h
      have hsetlen : ((List.replicate (n + 1) (F.val 0)).set 0 r).length = n + 1 := by
        rw [List.length_set, hrepl]
      have hTlen : (rest.take n).length ≤ n := by
        rw [List.length_take]
        omega
      have hspec := fromRangesGo_spec n (rest.take n) 1
        ((List.replicate (n + 1) (F.val 0)).set 0 r) (by omega) (by omega) hsetlen
      rw [show (1 : ℕ) - 1 = 0 from rfl,
        getD_set_self (List.replicate (n + 1) (F.val 0)) 0 r F.nan (by rw [hrepl]; omega)]
        at hspec
      have hfr2 : from_ranges n (r :: rest) =
          (if ((rest.take n).any F.isNan || decrFrom r (rest.take n)) = true then none
           else if 1 + (rest.take n).length = n + 1 then
             some (overwriteFrom 1 (rest.take n) ((List.replicate (n + 1) (F.val 0)).set 0 r))
           else none).map
            (fun range => { n := n, range := range, bin := List.replicate n 0 }) := by
        unfold from_ranges
        rw [hstep rest, htake1 rest, hspec]
      have hfrT : from_ranges n (r :: rest.take n) = from_ranges n (r :: rest) := by
        unfold from_ranges
        rw [hstep (rest.take n), htake1 (rest.take n), hstep rest, htake1 rest,
          List.take_take, min_self]
      have hthird : from_ranges n (r :: rest) = from_ranges n ((r :: rest).take (n + 1)) := by
        rw [List.take_succ_cons]
        exact hfrT.symm
      have hany2 : ((r :: rest).take (n + 1)).any F.isNan = (rest.take n).any F.isNan := by
        rw [List.take_succ_cons, List.any_cons, hrnanF, Bool.false_or]
      have hdecl : decrList ((r :: rest).take (n + 1)) = decrFrom r (rest.take n) := by
        rw [List.take_succ_cons]
        rfl
      have hlen3 : (r :: rest).length < n + 1 ↔ ¬ (1 + (rest.take n).length = n + 1) := by
        rw [List.length_take]
        simp only [List.length_cons]
        omega
      refine ⟨?_, ?_, hthird⟩
      · rw [hany2, hdecl]
        by_cases hcond : ((rest.take n).any F.isNan || decrFrom r (rest.take n)) = true
        · have hnone : from_ranges n (r :: rest) = none := by
            rw [hfr2, if_pos hcond]
            rfl
          rw [hnone]
          constructor
          · intro _
            rcases (Bool.or_eq_true _ _).mp hcond with h1 | h2
            · exact Or.inl h1
            · exact Or.inr (Or.inl h2)
          · intro _
            rfl
        · by_cases hlen2 : 1 + (rest.take n).length = n + 1
          · have hsome2 : from_ranges n (r :: rest) =
                some (⟨n, overwriteFrom 1 (rest.take n)
                  ((List.replicate (n + 1) (F.val 0)).set 0 r),
                  List.replicate n 0⟩ : Histogram) := by
              rw [hfr2, if_neg hcond, if_pos hlen2]
              rfl
            rw [hsome2]
            constructor
            · intro hc
              exact absurd hc (by simp)
            · intro hc
              exfalso
              rcases hc with h1 | h2 | h3
              · exact hcond (by rw [h1, Bool.true_or])
              · exact hcond (by rw [h2, Bool.or_true])
              · exact (hlen3.mp h3) hlen2
          · have hnone : from_ranges n (r :: rest) = none := by
              rw [hfr2, if_neg hcond, if_neg hlen2]
              rfl
            rw [hnone]
            constructor
            · intro _
              exact Or.inr (Or.inr (hlen3.mpr hlen2))
            · intro _
              rfl
      · intro h hsome
        rw [hfr2] at hsome
        by_cases hcond : ((rest.take n).any F.isNan || decrFrom r (rest.take n)) = true
        · rw [if_pos hcond] at hsome
          exact absurd hsome (by simp)
        · rw [if_neg hcond] at hsome
          by_cases hlen2 : 1 + (rest.take n).length = n + 1
          · rw [if_pos hlen2] at hsome
            have hh : (⟨n, overwriteFrom 1 (rest.take n)
                ((List.replicate (n + 1) (F.val 0)).set 0 r),
                List.replicate n 0⟩ : Histogram) = h := by
              exact Option.some.inj hsome
            rw [← hh]
            refine ⟨rfl, ?_, rfl, ?_⟩
            · show (overwriteFrom 1 (rest.take n)
                ((List.replicate (n + 1) (F.val 0)).set 0 r)).length = n + 1
              rw [overwriteFrom_length]
              exact hsetlen
            · intro j hj
              show (overwriteFrom 1 (rest.take n)
                ((List.replicate (n + 1) (F.val 0)).set 0 r)).getD j F.nan = _
              rw [overwriteFrom_getD (rest.take n) 1 _ j (by rw [hsetlen]; omega)]
              by_cases hj0 : j = 0
              · subst hj0
                rw [if_neg (by omega),
                  getD_set_self (List.replicate (n + 1) (F.val 0)) 0 r F.nan
                    (by rw [hrepl]; omega)]
                rfl
              · obtain ⟨k, hk⟩ : ∃ k, j = k + 1 := ⟨j - 1, by omega⟩
                subst hk
                rw [if_pos ⟨by omega, by omega⟩,
                  show k + 1 - 1 = k from by omega,
                  getD_take rest n k F.nan (by omega)]
                rfl
          · rw [if_neg hlen2] at hsome
            exact absurd hsome (by simp)

/-- C5: for `N >= 1`, `from_ranges` fails iff the first `N + 1` input
values contain a NaN, or some adjacent pair among them decreases (IEEE
`>`), or fewer than `N + 1` values are supplied; on success the
boundaries are exactly the first `N + 1` input values and all bins are
zero; and input values beyond the first `N + 1` never affect the result
(`from_ranges l = from_ranges (take (N + 1) l)`). -/
theorem c5_from_ranges (n : ℕ) (l : List F) (hn : 1 ≤ n) :
    (from_ranges n l = none ↔
      ((l.take (n + 1)).any F.isNan = true ∨ decrList (l.take (n + 1)) = true ∨
        l.length < n + 1)) ∧
    (∀ h, from_ranges n l = some h →
      h.n = n ∧ h.range.length = n + 1 ∧ h.bin = List.replicate n 0 ∧
      ∀ j, j ≤ n → h.range.getD j F.nan = l.getD j F.nan) ∧
    from_ranges n l = from_ranges n (l.take (n + 1)) :=
  from_ranges_char n l hn

/-- Witness for `c5_from_ranges` at `N = 1` and input `[0, 1, 5]` (the
third value is ignored; construction succeeds with boundaries `[0, 1]`). -/
theorem c5_witness :
    (from_ranges 1 [F.val 0, F.val 1, F.val 5] = none ↔
      (([F.val 0, F.val 1, F.val 5].take (1 + 1)).any F.isNan = true ∨
        decrList ([F.val 0, F.val 1, F.val 5].take (1 + 1)) = true ∨
        ([F.val 0, F.val 1, F.val 5] : List F).length < 1 + 1)) ∧
    (∀ h, from_ranges 1 [F.val 0, F.val 1, F.val 5] = some h →
      h.n = 1 ∧ h.range.length = 1 + 1 ∧ h.bin = List.replicate 1 0 ∧
      ∀ j, j ≤ 1 → h.range.getD j F.nan = [F.val 0, F.val 1, F.val 5].getD j F.nan) ∧
    from_ranges 1 [F.val 0, F.val 1, F.val 5] =
      from_ranges 1 ([F.val 0, F.val 1, F.val 5].take (1 + 1)) :=
  c5_from_ranges 1 [F.val 0, F.val 1, F.val 5] (by decide)

/-! ### Invariant preservation (C7) -/

theorem cw_inv (n : ℕ) (s e : F) (hn : 1 ≤ n) (hs : s.isFinite = true)
    (he : e.isFinite = true) (hse : fleb s e = true)
    (hof : e.toRat - s.toRat ≤ fmax) :
    (with_const_width n s e).range.length = (with_const_width n s e).n + 1 ∧
    (with_const_width n s e).bin.length = (with_const_width n s e).n ∧
    NoNanIdx (with_const_width n s e).range ∧ MonoIdx (with_const_width n s e).range := by
  have hd0 : 0 ≤ e.toRat - s.toRat := by
    have := finite_toRat_le s e hs he hse
    linarith
  have hlo : -fmax ≤ e.toRat - s.toRat := by
    have := fmax_pos
    linarith
  have hlen : (with_const_width n s e).range.length = n + 1 := by
    simp only [with_const_width]
    rw [List.length_map, List.length_range]
  refine ⟨hlen, by show (List.replicate n 0).length = n; rw [List.length_replicate], ?_, ?_⟩
  · intro j hj
    rw [hlen] at hj
    exact finite_not_nan _ (cw_boundary n s e j hn (by omega) hs he hlo hof).1
  · apply monoIdx_of_adj
    intro j hj
    rw [hlen] at hj
    obtain ⟨hf1, hv1⟩ := cw_boundary n s e j hn (by omega) hs he hlo hof
    obtain ⟨hf2, hv2⟩ := cw_boundary n s e (j + 1) hn (by omega) hs he hlo hof
    rw [finite_ext _ hf1, finite_ext _ hf2, hv1, hv2, coe2_le]
    exact mul_le_mul_of_nonneg_left (by exact_mod_cast Nat.le_succ j)
      (div_nonneg hd0 (by positivity))

theorem decrList_adj : ∀ (l : List F), decrList l = false →
    ∀ j, j + 1 < l.length → fgtb (l.getD j F.nan) (l.getD (j + 1) F.nan) = false := by
  intro l
  induction l with
  | nil => intro _ j hj; simp at hj
  | cons a t ih =>
    intro hd j hj
    cases t with
    | nil => simp at hj
    | cons b t2 =>
      have h0 : (fgtb a b || decrList (b :: t2)) = false := hd
      cases hab : fgtb a b with
      | false =>
        have hrest : decrList (b :: t2) = false := by
          rw [hab, Bool.false_or] at h0
          exact h0
        cases j with
        | zero => exact hab
        | succ j => exact ih hrest j (by simpa using hj)
      | true =>
        rw [hab, Bool.true_or] at h0
        exact absurd h0 (by simp)

theorem from_ranges_inv (n : ℕ) (l : List F) (h : Histogram) (hn : 1 ≤ n)
    (hsome : from_ranges n l = some h) :
    h.n = n ∧ h.range.length = n + 1 ∧ h.bin.length = n ∧
    NoNanIdx h.range ∧ MonoIdx h.range := by
  obtain ⟨hiff, hsucc, _⟩ := from_ranges_char n l hn
  obtain ⟨hn2, hlen2, hbin2, hget⟩ := hsucc h hsome
  have hnotnone : ¬ from_ranges n l = none := by
    rw [hsome]
    simp
  have hA : (l.take (n + 1)).any F.isNan = false := by
    cases hb : (l.take (n + 1)).any F.isNan with
    | false => rfl
    | true => exact absurd (hiff.mpr (Or.inl hb)) hnotnone
  have hB : decrList (l.take (n + 1)) = false := by
    cases hb : decrList (l.take (n + 1)) with
    | false => rfl
    | true => exact absurd (hiff.mpr (Or.inr (Or.inl hb))) hnotnone
  have hC : ¬ l.length < n + 1 := fun hc => hnotnone (hiff.mpr (Or.inr (Or.inr hc)))
  have htlen : (l.take (n + 1)).length = n + 1 := by
    rw [List.length_take]
    omega
  have hgetT : ∀ j, j ≤ n → h.range.getD j F.nan = (l.take (n + 1)).getD j F.nan := by
    intro j hj
    rw [hget j hj, getD_take l (n + 1) j F.nan (by omega)]
  have htnn : ∀ j, j ≤ n → ((l.take (n + 1)).getD j F.nan).isNan = false := by
    intro j hj
    have hmem := getD_mem (l.take (n + 1)) j F.nan (by omega)
    have hne := List.any_eq_false.mp hA _ hmem
    rw [← Bool.not_eq_true]
    exact hne
  have hnn : NoNanIdx h.range := by
    intro j hj
    rw [hlen2] at hj
    rw [hgetT j (by omega)]
    exact htnn j (by omega)
  have hmono : MonoIdx h.range := by
    apply monoIdx_of_adj
    intro j hj
    rw [hlen2] at hj
    rw [hgetT j (by omega), hgetT (j + 1) (by omega)]
    have hfg := decrList_adj _ hB j (by omega)
    have hfgn : ¬ fgtb ((l.take (n + 1)).getD j F.nan) ((l.take (n + 1)).getD (j + 1) F.nan) =
        true := by
      rw [hfg]
      simp
    have hlt : ¬ ((l.take (n + 1)).getD (j + 1) F.nan).ext <
        ((l.take (n + 1)).getD j F.nan).ext := by
      intro hc
      exact hfgn ((fgtb_iff _ _).mpr ⟨htnn j (by omega), htnn (j + 1) (by omega), hc⟩)
    exact not_lt.mp hlt
  exact ⟨hn2, hlen2, by rw [hbin2]; exact List.length_replicate _ _, hnn, hmono⟩

theorem add_ok_inv (h : Histogram) (x : F) (h2 : Histogram)
    (ha : h.add x = some (true, h2)) :
    h2.range = h.range ∧ h2.n = h.n ∧ h2.bin.length = h.bin.length := by
  unfold Histogram.add at ha
  rcases hf : h.find x with _ | oi
  · rw [hf] at ha
    exact absurd ha (by simp)
  · rcases oi with _ | i
    · rw [hf] at ha
      have ha2 : (some (false, h) : Option (Bool × Histogram)) = some (true, h2) := ha
      have hfst := congrArg Prod.fst (Option.some.inj ha2)
      exact absurd hfst (by simp)
    · rw [hf] at ha
      have ha2 : (some (true, { h with bin := h.bin.set i ((h.bin.getD i 0 + 1) % 2 ^ 64) }) :
          Option (Bool × Histogram)) = some (true, h2) := ha
      have hsnd : ({ h with bin := h.bin.set i ((h.bin.getD i 0 + 1) % 2 ^ 64) } :
          Histogram) = h2 := congrArg Prod.snd (Option.some.inj ha2)
      rw [← hsnd]
      refine ⟨rfl, rfl, ?_⟩
      show (h.bin.set i ((h.bin.getD i 0 + 1) % 2 ^ 64)).length = h.bin.length
      rw [List.length_set]

theorem add_assign_inv (h o h2 : Histogram) (hm : h.add_assign o = some h2) :
    h2.range = h.range ∧ h2.n = h.n ∧
    h2.bin = List.zipWith (fun a b => (a + b) % 2 ^ 64) h.bin o.bin := by
  unfold Histogram.add_assign at hm
  by_cases hr : rangesEqB h.range o.range = true
  · rw [if_pos hr] at hm
    have hh := Option.some.inj hm
    rw [← hh]
    exact ⟨rfl, rfl, rfl⟩
  · rw [if_neg hr] at hm
    exact absurd hm (by simp)

/-- C7, claim as stated is refuted twice over: `with_const_width(1, 0)`
(bin count `N = 1`, finite inputs, `end < start`) constructs the
decreasing boundaries `0, -1`; and `with_const_width(-f64::MAX,
f64::MAX)` (finite inputs, `start <= end`) overflows the subtraction and
makes `ranges[0] = inf * 0 = NaN`. -/
theorem c7_counterexample :
    (F.val 1).isFinite = true ∧ (F.val 0).isFinite = true ∧
    ¬ MonoIdx (with_const_width 1 (F.val 1) (F.val 0)).range ∧
    (F.val (-fmax)).isFinite = true ∧ (F.val fmax).isFinite = true ∧
    fleb (F.val (-fmax)) (F.val fmax) = true ∧
    ((with_const_width 1 (F.val (-fmax)) (F.val fmax)).range.getD 0 F.nan).isNan =
      true := by
  have hfm := fmax_pos
  have hfm1 := fmax_ge_one
  refine ⟨rfl, rfl, ?_, rfl, rfl, ?_, ?_⟩
  · have hlen : (with_const_width 1 (F.val 1) (F.val 0)).range.length = 2 := by
      simp only [with_const_width]
      rw [List.length_map, List.length_range]
    intro hm
    obtain ⟨hf0, hv0⟩ := cw_boundary 1 (F.val 1) (F.val 0) 0 (by omega) (by omega) rfl rfl
      (by show -fmax ≤ (0 : ℚ) - 1; linarith) (by show (0 : ℚ) - 1 ≤ fmax; linarith)
    obtain ⟨hf1, hv1⟩ := cw_boundary 1 (F.val 1) (F.val 0) 1 (by omega) (by omega) rfl rfl
      (by show -fmax ≤ (0 : ℚ) - 1; linarith) (by show (0 : ℚ) - 1 ≤ fmax; linarith)
    have h := hm 0 1 (by omega) (by rw [hlen]; omega)
    rw [finite_ext _ hf0, finite_ext _ hf1, hv0, hv1, coe2_le] at h
    simp only [F.toRat] at h
    norm_num at h
  · refine (fleb_iff _ _).mpr ⟨rfl, rfl, ?_⟩
    rw [val_ext_le]
    linarith
  · rw [cw_overflow_nan]
    rfl

/-- C7 (amended): every histogram reachable from `with_const_width` on
finite endpoints with `start <= end` and a non-overflowing difference
`end - start <= f64::MAX` (the amendments — with `end < start` the
constructed ranges are decreasing, and with an overflowing difference
`ranges[0]` is NaN) or from a successful `from_ranges` (with the spec's
`N >= 1`), through any sequence of successful `add`, `reset`, merges
with a same-size histogram, and scalings, has exactly `N + 1` range
boundaries and `N` bins, non-decreasing NaN-free ranges. -/
theorem c7_invariants (h : Histogram) (hr : Reachable h) :
    h.range.length = h.n + 1 ∧ h.bin.length = h.n ∧
    NoNanIdx h.range ∧ MonoIdx h.range := by
  induction hr with
  | cw n s e hn hs he hse hof => exact cw_inv n s e hn hs he hse hof
  | fr n l h2 hn hsome =>
    obtain ⟨hn2, hlen2, hbl, hnn, hmono⟩ := from_ranges_inv n l h2 hn hsome
    rw [hn2]
    exact ⟨hlen2, hbl, hnn, hmono⟩
  | addOk h2 x h3 hr2 ha ih =>
    obtain ⟨hrng, hnn2, hbl⟩ := add_ok_inv h2 x h3 ha
    rw [hrng, hnn2, hbl]
    exact ih
  | reset h2 hr2 ih =>
    refine ⟨ih.1, ?_, ih.2.2.1, ih.2.2.2⟩
    show (List.replicate h2.n 0).length = h2.n
    rw [List.length_replicate]
  | merge h2 other h3 hr2 hon hobl horl hm ih =>
    obtain ⟨hrng, hnn2, hbin⟩ := add_assign_inv h2 other h3 hm
    rw [hrng, hnn2, hbin]
    refine ⟨ih.1, ?_, ih.2.2.1, ih.2.2.2⟩
    rw [List.length_zipWith, ih.2.1, hobl, hon]
    exact min_self _
  | scale h2 k hr2 ih =>
    refine ⟨ih.1, ?_, ih.2.2.1, ih.2.2.2⟩
    show (h2.bin.map (fun x => (x * k) % 2 ^ 64)).length = h2.n
    rw [List.length_map, ih.2.1]

/-- Witness for `c7_invariants` at `with_const_width 1 0 1`. -/
theorem c7_witness :
    (with_const_width 1 (F.val 0) (F.val 1)).range.length =
        (with_const_width 1 (F.val 0) (F.val 1)).n + 1 ∧
    (with_const_width 1 (F.val 0) (F.val 1)).bin.length =
        (with_const_width 1 (F.val 0) (F.val 1)).n ∧
    NoNanIdx (with_const_width 1 (F.val 0) (F.val 1)).range ∧
    MonoIdx (with_const_width 1 (F.val 0) (F.val 1)).range :=
  c7_invariants _
    (Reachable.cw 1 (F.val 0) (F.val 1) (by decide) (by decide) (by decide) (by decide)
      (by show (1 : ℚ) - 0 ≤ fmax
          norm_num [fmax]))
